import Mathlib

/-!
# Verification of the subs2cia-remake core against its specification

Shallow embedding of the repository's core components:

* `subs2cia/time_ranges.py` — the `TimeRanges` interval-set algebra,
* `subs2cia/retiming_helpers.py` — `adjust_timing`,
* `subs2cia/subtitles_ass.py` — the ASS time codec, parser and rewriter,
* `subs2cia/ffmpeg_helpers.py` — the trim/concat filter-graph writers.

Python `str` values are modelled as `List Char`; Python `int` as `Int`;
functions that can raise are modelled as `Option`-valued.  The two
rescaling helpers multiply by the float `new_ups / old_ups` and take
`math.floor` / `math.ceil`; they are modelled with exact rational
arithmetic (`Int.fdiv`), the real-valued idealization of that code.
Python's negative list indexing (`xs[-1]`) is modelled explicitly by
`pyGetD`.
-/

namespace Subs2cia

/-- A time range, `(start, end)`, as the Python `Tuple[int, int]`. -/
abbrev Range := Int × Int

/-- `_ranges_overlap` from `time_ranges.py`: true when the two closed
ranges overlap or touch. -/
def ranges_overlap (range1 range2 : Range) : Bool :=
  (range1.1 ≥ range2.1 && range1.1 ≤ range2.2) ||
  (range2.1 ≥ range1.1 && range2.1 ≤ range1.2)

/-- `_merge_ranges` from `time_ranges.py`. -/
def merge_ranges (range1 range2 : Range) : Range :=
  (max 0 (min range1.1 range2.1), max range1.2 range2.2)

/-- Loop body of `_consolidate_overlapping_ranges`: `acc` is the last
element of the output list built so far (`ret[-1]`). -/
def consolidateAux (acc : Range) : List Range → List Range
  | [] => [acc]
  | r2 :: rest =>
      if ranges_overlap acc r2 then consolidateAux (merge_ranges acc r2) rest
      else acc :: consolidateAux r2 rest

/-- `_consolidate_overlapping_ranges` from `time_ranges.py` (the input
must be sorted on the range start). -/
def consolidate_overlapping_ranges : List Range → List Range
  | [] => []
  | r :: rest => consolidateAux r rest

/-- The `TimeRanges` object state: the range list, the units-per-second
value, and the lazily cached cumulative-skip vector. -/
structure TimeRanges where
  _ranges : List Range
  _units_per_second : Int
  _cached_cumulative_skip : Option (List Int)
deriving Repr, DecidableEq

namespace TimeRanges

/-- `TimeRanges.__init__` (the cache starts empty). -/
def mk' (ranges : List Range) (units_per_second : Int) : TimeRanges :=
  ⟨ranges, units_per_second, none⟩

/-- `TimeRanges.from_unsorted`: sort on the range start (Python's sort is
stable; only sortedness and permutation matter here) then consolidate. -/
def from_unsorted (ranges : List Range) (units_per_second : Int) : TimeRanges :=
  mk' (consolidate_overlapping_ranges
        (ranges.mergeSort (fun a b => a.1 ≤ b.1))) units_per_second

/-- `TimeRanges.create_empty`. -/
def create_empty (units_per_second : Int) : TimeRanges :=
  mk' [] units_per_second

/-- `TimeRanges.clone` (the clone's cache starts empty). -/
def clone (tr : TimeRanges) : TimeRanges :=
  mk' tr._ranges tr._units_per_second

/-- Floor of the rational `a / b` (`math.floor(x * factor)` with the
float `factor` idealized as an exact rational). -/
def ratFloor (a b : Int) : Int := Int.fdiv a b

/-- Ceiling of the rational `a / b`. -/
def ratCeil (a b : Int) : Int := -(Int.fdiv (-a) b)

/-- `TimeRanges.set_units_per_second`.  `none` models the
`ZeroDivisionError` Python raises computing `ups / 0`; for integer
inputs the `isnan`/`isinf` check can never fire. -/
def set_units_per_second (tr : TimeRanges) (ups : Int) : Option TimeRanges :=
  if tr._units_per_second = ups then some tr
  else if tr._units_per_second = 0 then none
  else some
    { _ranges := tr._ranges.map fun x =>
        (ratFloor (x.1 * ups) tr._units_per_second,
         ratCeil (x.2 * ups) tr._units_per_second),
      _units_per_second := ups,
      _cached_cumulative_skip := none }

/-- `TimeRanges.with_units_per_second`. -/
def with_units_per_second (tr : TimeRanges) (ups : Int) : Option TimeRanges :=
  set_units_per_second (clone tr) ups

/-- `TimeRanges.add_padding`. -/
def add_padding (tr : TimeRanges) (pad_start pad_end pad_ups : Int) :
    Option TimeRanges :=
  if pad_start = 0 ∧ pad_end = 0 then some tr
  else
    (if pad_ups > tr._units_per_second then
      (set_units_per_second tr pad_ups).map fun t => (t, pad_start, pad_end)
    else if pad_ups < tr._units_per_second then
      if pad_ups = 0 then none
      else some (tr, ratFloor (tr._units_per_second * pad_start) pad_ups,
                     ratCeil (tr._units_per_second * pad_end) pad_ups)
    else some (tr, pad_start, pad_end)).map fun x =>
      { _ranges := consolidate_overlapping_ranges
          (x.1._ranges.map fun r => (max 0 (r.1 - x.2.1), r.2 + x.2.2)),
        _units_per_second := x.1._units_per_second,
        _cached_cumulative_skip := none }

end TimeRanges

/-- In-bounds list read, `l[i]` for a `Nat` index (all reads in the
embedded code are in bounds; an out-of-bounds read would be a Python
`IndexError`). -/
def nthR (l : List Range) (i : Nat) : Range := l.getD i (0, 0)

/-- Python list indexing with possibly negative index: `l[i]` is
`l[len l + i]` when `i < 0`. -/
def pyGetD {α : Type} (l : List α) (i : Int) (dflt : α) : α :=
  if i < 0 then l.getD (l.length - (-i).toNat) dflt else l.getD i.toNat dflt

/-- The `while low < high` binary-search loop of `TimeRanges.get_index`.
The first argument is fuel: each iteration shrinks `high - low` by at
least one, so any fuel ≥ the initial `high - low` runs the loop to
completion (when the fuel runs out with `low < high` still true, which
never happens from `get_index`, the result is `low`, the same value the
loop exit returns). -/
def getIndexLoop (l : List Range) (start : Int) :
    Nat → Nat → Nat → Nat
  | 0, low, _ => low
  | fuel + 1, low, high =>
      if low < high then
        let middle := (low + high) / 2
        let middle_value := nthR l middle
        if middle_value.1 = start then middle
        else if middle_value.1 < start then getIndexLoop l start fuel (middle + 1) high
        else getIndexLoop l start fuel low middle
      else low

/-- `TimeRanges.get_index`, on the range list. -/
def get_index (l : List Range) (start : Int) : Nat :=
  if l.length = 0 then 0
  else if (nthR l 0).1 > start then 0
  else if (nthR l (l.length - 1)).1 < start then l.length
  else getIndexLoop l start l.length 0 l.length

/-- The first `while` loop of `_consolidate_overlapping_ranges_around`,
acting on the reversed prefix before the index and the element at the
index: merge the element at `index - 1` into the current element while
they overlap. -/
def sweepLeftRev (preRev : List Range) (cur : Range) : List Range × Range :=
  match preRev with
  | [] => ([], cur)
  | p :: rest =>
      if ranges_overlap p cur then sweepLeftRev rest (merge_ranges p cur)
      else (p :: rest, cur)

/-- The second `while` loop of `_consolidate_overlapping_ranges_around`:
merge successors into the current element while they overlap. -/
def sweepRight (cur : Range) (suf : List Range) : Range × List Range :=
  match suf with
  | [] => (cur, [])
  | s :: rest =>
      if ranges_overlap cur s then sweepRight (merge_ranges cur s) rest
      else (cur, s :: rest)

/-- `TimeRanges._consolidate_overlapping_ranges_around` on the pair
(range list, cache).  Faithfully to the source, the early return for
lists of length ≤ 1 does NOT clear the cache; the normal path does. -/
def consolidate_around (l : List Range) (index : Nat)
    (cache : Option (List Int)) : List Range × Option (List Int) :=
  if l.length ≤ 1 then (l, cache)
  else
    let pre := l.take index
    let cur := nthR l index
    let suf := l.drop (index + 1)
    let left := sweepLeftRev pre.reverse cur
    let right := sweepRight left.2 suf
    (left.1.reverse ++ right.1 :: right.2, none)

namespace TimeRanges

/-- `TimeRanges.add`: insert at the binary-search index, then locally
re-consolidate around the insertion point. -/
def add (tr : TimeRanges) (start end_ : Int) : TimeRanges :=
  let idx := get_index tr._ranges start
  let l := tr._ranges.insertIdx idx (start, end_)
  let res := consolidate_around l idx tr._cached_cumulative_skip
  { _ranges := res.1,
    _units_per_second := tr._units_per_second,
    _cached_cumulative_skip := res.2 }

end TimeRanges

/-- Tail of `_rebuild_cumulative_skip`: given the previous range's end
and the accumulated skip, emit the remaining cache entries. -/
def rebuildAux (prevEnd acc : Int) : List Range → List Int
  | [] => []
  | r :: rest =>
      let a := acc + (r.1 - prevEnd)
      a :: rebuildAux r.2 a rest

/-- `TimeRanges._rebuild_cumulative_skip` as a pure function of the
range list: `S[0] = ranges[0].start`,
`S[i] = S[i-1] + (ranges[i].start - ranges[i-1].end)`. -/
def rebuild_cumulative_skip : List Range → List Int
  | [] => []
  | r :: rest => r.1 :: rebuildAux r.2 r.1 rest

namespace TimeRanges

/-- `TimeRanges.get_cumulative_skip`: populate the cache if absent, then
index into it (Python indexing, negative indices allowed; `none` models
the `IndexError` on an out-of-range index).  Returns the read value and
the updated object. -/
def get_cumulative_skip (tr : TimeRanges) (idx : Int) :
    Option Int × TimeRanges :=
  let cache := match tr._cached_cumulative_skip with
    | some c => c
    | none => rebuild_cumulative_skip tr._ranges
  (pyGetD (cache.map some) idx none,
   { tr with _cached_cumulative_skip := some cache })

end TimeRanges

/-- Cumulative skip of range `i`, read directly off the range list (the
value `get_cumulative_skip` returns whenever the cache is absent or
consistent, which is the §3 cache invariant). -/
def cumSkip (l : List Range) (i : Int) : Int :=
  pyGetD (rebuild_cumulative_skip l) i 0

/-- Backward walk of `adjust_timing`
(`for i in range(guess_idx, -1, -1)`): find the first range whose end
is ≥ `sub_start`, starting the walk at index `i`. -/
def backwardScan (l : List Range) (sub_start : Int) : Nat → Nat
  | 0 => if (nthR l 0).2 < sub_start then 1 else 0
  | i + 1 =>
      if (nthR l (i + 1)).2 < sub_start then i + 2
      else backwardScan l sub_start i

/-- Forward walk of `adjust_timing`
(`for i in range(guess_idx, len(time_ranges))`): find the last range
whose start is ≤ `sub_end`.  The result is an `Int` because Python's
`i - 1` on the first iteration can be `-1`.  The fuel argument covers
the remaining iterations (`l.length - i` from the caller); when it runs
out, `i ≥ l.length` already holds and the fuel-0 value agrees with the
loop-exhausted value `len - 1`. -/
def forwardScanF (l : List Range) (sub_end : Int) : Nat → Nat → Int
  | 0, _ => (l.length : Int) - 1
  | fuel + 1, i =>
      if i < l.length then
        if (nthR l i).1 > sub_end then (i : Int) - 1
        else forwardScanF l sub_end fuel (i + 1)
      else (l.length : Int) - 1

/-- The forward walk with enough fuel for the whole loop. -/
def forwardScan (l : List Range) (sub_end : Int) (i : Nat) : Int :=
  forwardScanF l sub_end (l.length - i) i

/-- `adjust_timing` from `retiming_helpers.py`, as a pure function of
the range list (the cumulative-skip reads go through `cumSkip`; see §3's
cache-consistency invariant).  `none` is *drop*. -/
def adjust_timing (sub_start sub_end : Int) (l : List Range) :
    Option (Int × Int) :=
  if l.length = 0 then none
  else
    let guess0 := get_index l sub_start
    let guess_idx := if guess0 ≥ l.length then guess0 - 1 else guess0
    let first_idx := backwardScan l sub_start guess_idx
    let last_idx := forwardScan l sub_end guess_idx
    if first_idx ≥ l.length then none
    else
      let first_range := nthR l first_idx
      let last_range := pyGetD l last_idx (0, 0)
      let s1 := if first_range.1 ≥ sub_start then first_range.1 else sub_start
      let e1 := if last_range.2 ≤ sub_end then last_range.2 else sub_end
      let s2 := s1 - cumSkip l first_idx
      let e2 := e1 - cumSkip l last_idx
      if e2 ≤ s2 then none else some (s2, e2)

end Subs2cia

/-! ## Python string helpers (str as List Char) -/

namespace Subs2cia

/-- The characters Python's `str.strip` family removes (the ASCII ones;
the callers only meet ASCII whitespace). -/
def pyWhitespace (c : Char) : Bool :=
  c = ' ' || c = '\t' || c = '\n' || c = '\r' || c = '\x0b' || c = '\x0c'

/-- Python `str.rstrip()`. -/
def rstrip (s : List Char) : List Char :=
  (s.reverse.dropWhile pyWhitespace).reverse

/-- Python `str.lstrip()`. -/
def lstrip (s : List Char) : List Char :=
  s.dropWhile pyWhitespace

/-- Python `str.strip()`. -/
def strip (s : List Char) : List Char :=
  lstrip (rstrip s)

/-- Python `str.startswith(pre)`. -/
def startswith (pre s : List Char) : Bool :=
  List.isPrefixOf pre s

/-- Python `str.split(sep)` (single-character separator, no limit):
always returns at least one piece, and empty pieces are kept. -/
def split_on (sep : Char) : List Char → List (List Char)
  | [] => [[]]
  | c :: rest =>
      let r := split_on sep rest
      if c = sep then [] :: r
      else
        match r with
        | [] => [[c]]
        | h :: t => (c :: h) :: t

/-- The split at the first occurrence of `sep`, if any. -/
def breakAtSep (sep : Char) : List Char → Option (List Char × List Char)
  | [] => none
  | c :: t =>
      if c = sep then some ([], t)
      else (breakAtSep sep t).map fun p => (c :: p.1, p.2)

/-- Python `str.split(sep, maxsplit)`: at most `limit` splits, the
remainder is kept whole (so the last piece may contain separators). -/
def split_limit (sep : Char) : Nat → List Char → List (List Char)
  | 0, s => [s]
  | limit + 1, s =>
      match breakAtSep sep s with
      | none => [s]
      | some p => p.1 :: split_limit sep limit p.2

/-- Python `list.index(x)` (`none` models the `ValueError` when absent). -/
def list_index (x : List Char) (l : List (List Char)) : Option Nat :=
  l.findIdx? (· = x)

/-- Decimal digit character of `d < 10`. -/
def digitChar (d : Nat) : Char := Char.ofNat (48 + d)

/-- Decimal digits of `n`, most significant first, with fuel (any fuel
above the digit count gives the same value; `n + 1` is always enough). -/
def natReprAux : Nat → Nat → List Char
  | 0, _ => []
  | fuel + 1, n =>
      if n < 10 then [digitChar n]
      else natReprAux fuel (n / 10) ++ [digitChar (n % 10)]

/-- Python `str(n)` for a non-negative integer. -/
def natRepr (n : Nat) : List Char := natReprAux (n + 1) n

/-- Python `str(i)` for an integer. -/
def intRepr (i : Int) : List Char :=
  if i < 0 then '-' :: natRepr (-i).toNat else natRepr i.toNat

/-- Is `c` a decimal digit. -/
def isDigitChar (c : Char) : Bool := '0' ≤ c && c ≤ '9'

/-- Numeric value of a digit string (most significant first). -/
def digitsVal (s : List Char) : Nat :=
  s.foldl (fun a c => 10 * a + (c.toNat - 48)) 0

/-- Python `int(s)` restricted to the shapes the embedded code meets:
optional surrounding whitespace, an optional sign, then one or more
decimal digits.  `none` models the `ValueError` on anything else. -/
def pyInt (s : List Char) : Option Int :=
  match strip s with
  | '-' :: ds =>
      if ds ≠ [] ∧ ds.all isDigitChar then some (-(digitsVal ds : Int)) else none
  | '+' :: ds =>
      if ds ≠ [] ∧ ds.all isDigitChar then some (digitsVal ds : Int) else none
  | ds =>
      if ds ≠ [] ∧ ds.all isDigitChar then some (digitsVal ds : Int) else none

/-! ## The ASS codec (`subtitles_ass.py`) -/

/-- `parse_time` from `subtitles_ass.py` (`none` models `ValueError`). -/
def parse_time (field : List Char) : Option Int :=
  match split_on ':' field with
  | [p0, p1, p2] =>
      match pyInt p0, pyInt p1 with
      | some hours, some mins =>
          match split_on '.' p2 with
          | [q0, q1] =>
              match pyInt q0, pyInt q1 with
              | some seconds, some hundredths =>
                  if hours < 0 ∨ mins < 0 ∨ seconds < 0 ∨ hundredths < 0 then none
                  else some (hundredths + seconds * 100 + mins * (100 * 60)
                             + hours * (100 * 60 * 60))
              | _, _ => none
          | _ => none
      | _, _ => none
  | _ => none

/-- Python `str.rjust(width, fill)`. -/
def rjust (s : List Char) (width : Nat) (fill : Char) : List Char :=
  if width ≤ s.length then s else List.replicate (width - s.length) fill ++ s

/-- `unparse_time` from `subtitles_ass.py` (`none` models the
`ValueError` raised on a negative input). -/
def unparse_time (hundredths : Int) : Option (List Char) :=
  if hundredths < 0 then none
  else
    let n := hundredths.toNat
    some (natRepr (n / (100 * 60 * 60))
      ++ ':' :: rjust (natRepr ((n / (100 * 60)) % 60)) 2 '0'
      ++ ':' :: rjust (natRepr ((n / 100) % 60)) 2 '0'
      ++ '.' :: rjust (natRepr (n % 100)) 2 '0')

/-- `escape_to_plain_text` from `subtitles_ass.py`. -/
def escape_to_plain_text : List Char → List Char
  | [] => []
  | [c] => [c]
  | c :: next :: rest2 =>
      if c = '\\' ∧ (next = 'n' ∨ next = 'N') then
        '\n' :: escape_to_plain_text rest2
      else c :: escape_to_plain_text (next :: rest2)

/-- `SubtitlesEvent` from `subtitles_types.py`. -/
structure SubtitlesEvent where
  start : Int
  end_ : Int
  raw_text : List Char
  plain_text : List Char
deriving Repr, DecidableEq

/-- `Subtitles` from `subtitles_types.py`. -/
structure Subtitles where
  events : List SubtitlesEvent
  event_units_per_second : Int
deriving Repr, DecidableEq

/-- The parser's state machine state (`_STATE_SKIP_UNTIL_EVENTS`,
`_STATE_GET_FORMAT`, `_STATE_GET_EVENTS`; in the third state the
`format` fields and the recorded column indices are set). -/
inductive PState where
  | skip_until_events
  | get_format
  | get_events (format : List (List Char)) (start_idx end_idx text_idx : Nat)
deriving Repr, DecidableEq

/-- One loop iteration of `parse` on one input line: the next state and
the event parsed from the line, if any.  `none` models raised
`ValueError`. -/
def parseStep (st : PState) (line : List Char) :
    Option (PState × Option SubtitlesEvent) :=
  let ln := rstrip line
  match st with
  | PState.skip_until_events =>
      if ln = ("[Events]".toList) then some (PState.get_format, none)
      else some (PState.skip_until_events, none)
  | PState.get_format =>
      if !startswith ("Format:".toList) ln then none
      else
        let format := (split_on ',' (ln.drop 7)).map strip
        match list_index ("End".toList) format,
              list_index ("Start".toList) format,
              list_index ("Text".toList) format with
        | some end_idx, some start_idx, some text_idx =>
            if text_idx ≠ format.length - 1 then none
            else some (PState.get_events format start_idx end_idx text_idx, none)
        | _, _, _ => none
  | PState.get_events format start_idx end_idx text_idx =>
      if ln = [] then some (PState.skip_until_events, none)
      else if !startswith ("Dialogue:".toList) ln then some (st, none)
      else
        let body := lstrip (ln.drop 9)
        let event := split_limit ',' (format.length - 1) body
        if event.length ≠ format.length then none
        else
          let raw_text := event.getD text_idx []
          match parse_time (event.getD start_idx []),
                parse_time (event.getD end_idx []) with
          | some s, some e =>
              some (st, some ⟨s, e, raw_text, escape_to_plain_text raw_text⟩)
          | _, _ => none

/-- The `for ln in file` loop of `parse`, from a given state. -/
def parseLines (st : PState) : List (List Char) → Option (List SubtitlesEvent)
  | [] => some []
  | line :: rest =>
      (parseStep st line).bind fun p =>
        (parseLines p.1 rest).map fun evs => p.2.toList ++ evs

/-- `parse` from `subtitles_ass.py` on a list of input lines. -/
def parse (lines : List (List Char)) : Option Subtitles :=
  (parseLines PState.skip_until_events lines).map fun evs => ⟨evs, 100⟩

end Subs2cia

/-! ## The ASS rewriter (`retime` in `subtitles_ass.py`) -/

namespace Subs2cia

/-- The rewriter's state machine state. -/
inductive RState where
  | skip_until_events
  | get_format
  | get_events (format : List (List Char)) (start_idx end_idx : Nat)
deriving Repr, DecidableEq

/-- One loop iteration of `retime` on one input line: the next state
and the text written to the output file for this line.  `none` models
raised `ValueError`.  In the dialogue branch the code calls
`adjust_timing` with the `time_ranges` argument itself: the rescaled
copy built by `retime`'s opening `with_units_per_second(100)` call is
discarded (see `retime` below). -/
def retimeStep (ranges : List Range) (st : RState) (line : List Char) :
    Option (RState × List Char) :=
  let ln := rstrip line
  match st with
  | RState.skip_until_events =>
      if ln = ("[Events]".toList) then some (RState.get_format, ln ++ ['\n'])
      else some (RState.skip_until_events, ln ++ ['\n'])
  | RState.get_format =>
      if !startswith ("Format:".toList) ln then none
      else
        let format := (split_on ',' (ln.drop 7)).map strip
        match list_index ("End".toList) format,
              list_index ("Start".toList) format with
        | some end_idx, some start_idx =>
            some (RState.get_events format start_idx end_idx, ln ++ ['\n'])
        | _, _ => none
  | RState.get_events format start_idx end_idx =>
      if ln = [] then some (RState.skip_until_events, ln ++ ['\n'])
      else if !startswith ("Dialogue:".toList) ln then some (st, ln ++ ['\n'])
      else
        let body := lstrip (ln.drop 9)
        let event := split_limit ',' (format.length - 1) body
        if event.length ≠ format.length then none
        else
          match parse_time (event.getD start_idx []),
                parse_time (event.getD end_idx []) with
          | some s, some e =>
              match adjust_timing s e ranges with
              | none => some (st, [])
              | some r =>
                  match unparse_time r.1, unparse_time r.2 with
                  | some us, some ue =>
                      let event2 := (event.set start_idx us).set end_idx ue
                      some (st, ("Dialogue: ".toList)
                        ++ List.intercalate [','] event2 ++ ['\n'])
                  | _, _ => none
          | _, _ => none

/-- The `for ln in in_file` loop of `retime`, from a given state,
returning the concatenated output text. -/
def retimeLines (ranges : List Range) (st : RState) :
    List (List Char) → Option (List Char)
  | [] => some []
  | line :: rest =>
      (retimeStep ranges st line).bind fun p =>
        (retimeLines ranges p.1 rest).map fun out => p.2 ++ out

/-- `retime` from `subtitles_ass.py` on a list of input lines.  The
source's first statement builds `time_ranges.with_units_per_second(100)`
and discards the result (it can still raise, which the `bind`
preserves); every event is then adjusted against the original,
un-rescaled `time_ranges`. -/
def retime (tr : TimeRanges) (lines : List (List Char)) : Option (List Char) :=
  (tr.with_units_per_second 100).bind fun _ =>
    retimeLines tr._ranges RState.skip_until_events lines

/-! ## The filter-graph writers (`ffmpeg_helpers.py`) -/

/-- Mutable state of a filter writer: the text written so far, the two
label counters, and the pending-label stack (`audio_streams` /
`video_streams`; the Python list's end, where `append` and `pop` act,
is the head here). -/
structure FilterState where
  out : List Char
  total : Nat
  totalConcat : Nat
  streams : List (List Char)
deriving Repr, DecidableEq

/-- One `for time_range in audio_time_ranges` iteration of
`write_complex_filter_for_audio_trim`. -/
def audio_trim_step (audio_file_index audio_stream_index : Int)
    (stream_pfx concat_pfx : List Char) (st : FilterState) (r : Range) :
    FilterState :=
  let this_out := stream_pfx ++ natRepr st.total
  let out1 := st.out ++ ['['] ++ intRepr audio_file_index ++ [':']
    ++ intRepr audio_stream_index ++ [']']
    ++ ("atrim=".toList) ++ ("start_pts=".toList) ++ intRepr r.1 ++ [':']
    ++ ("end_pts=".toList) ++ intRepr r.2 ++ (",asetpts=PTS-STARTPTS".toList)
    ++ ['['] ++ this_out ++ [']'] ++ [';']
  let streams1 := this_out :: st.streams
  if streams1.length ≥ 2 then
    let this_concat_out := concat_pfx ++ natRepr st.totalConcat
    let stream2 := streams1.headD []
    let rest1 := streams1.tail
    let stream1 := rest1.headD []
    let out2 := out1 ++ ['['] ++ stream1 ++ [']'] ++ ['['] ++ stream2 ++ [']']
      ++ ("concat=v=0:a=1".toList) ++ ['['] ++ this_concat_out ++ [']'] ++ [';']
    ⟨out2, st.total + 1, st.totalConcat + 1, this_concat_out :: rest1.tail⟩
  else ⟨out1, st.total + 1, st.totalConcat, streams1⟩

/-- `write_complex_filter_for_audio_trim`: `none` models the
`ValueError` on an empty range set; otherwise the written text and the
returned label `audio_streams[-1]`. -/
def write_complex_filter_for_audio_trim (ranges : List Range)
    (audio_file_index audio_stream_index : Int)
    (stream_pfx concat_pfx : List Char) : Option (List Char × List Char) :=
  if ranges.length = 0 then none
  else
    let fin := ranges.foldl
      (audio_trim_step audio_file_index audio_stream_index stream_pfx concat_pfx)
      ⟨[], 0, 0, []⟩
    some (fin.out, fin.streams.headD [])

/-- One `for time_range in video_time_ranges` iteration of
`write_complex_filter_for_video_trim`. -/
def video_trim_step (video_file_index video_stream_index : Int)
    (stream_pfx concat_pfx : List Char) (st : FilterState) (r : Range) :
    FilterState :=
  let this_out := stream_pfx ++ natRepr st.total
  let out1 := st.out ++ ['['] ++ intRepr video_file_index ++ [':']
    ++ intRepr video_stream_index ++ [']']
    ++ ("trim=".toList) ++ ("start_pts=".toList) ++ intRepr r.1 ++ [':']
    ++ ("end_pts=".toList) ++ intRepr r.2 ++ (",setpts=PTS-STARTPTS".toList)
    ++ ['['] ++ this_out ++ [']'] ++ [';']
  let streams1 := this_out :: st.streams
  if streams1.length ≥ 2 then
    let this_concat_out := concat_pfx ++ natRepr st.totalConcat
    let stream2 := streams1.headD []
    let rest1 := streams1.tail
    let stream1 := rest1.headD []
    let out2 := out1 ++ ['['] ++ stream1 ++ [']'] ++ ['['] ++ stream2 ++ [']']
      ++ ("concat".toList) ++ ['['] ++ this_concat_out ++ [']'] ++ [';']
    ⟨out2, st.total + 1, st.totalConcat + 1, this_concat_out :: rest1.tail⟩
  else ⟨out1, st.total + 1, st.totalConcat, streams1⟩

/-- `write_complex_filter_for_video_trim`, as the audio variant. -/
def write_complex_filter_for_video_trim (ranges : List Range)
    (video_file_index video_stream_index : Int)
    (stream_pfx concat_pfx : List Char) : Option (List Char × List Char) :=
  if ranges.length = 0 then none
  else
    let fin := ranges.foldl
      (video_trim_step video_file_index video_stream_index stream_pfx concat_pfx)
      ⟨[], 0, 0, []⟩
    some (fin.out, fin.streams.headD [])

end Subs2cia

/-! ## Invariants of the range list (spec §3) -/

namespace Subs2cia

/-- A valid interval per §3: non-negative start, start ≤ end. -/
def validR (r : Range) : Prop := 0 ≤ r.1 ∧ r.1 ≤ r.2

instance (r : Range) : Decidable (validR r) :=
  inferInstanceAs (Decidable (0 ≤ r.1 ∧ r.1 ≤ r.2))

/-- Adjacent ranges neither overlap nor touch. -/
def Adjac (l : List Range) : Prop :=
  List.Chain' (fun a b => a.2 < b.1) l

/-- The working invariant of a consolidated range list: adjacency plus
validity of every member. -/
def Inv (l : List Range) : Prop :=
  Adjac l ∧ ∀ r ∈ l, validR r

/-- The §3 invariant exactly as the claims word it: strictly ordered by
start, adjacent ranges neither overlap nor touch, every start ≥ 0. -/
def ClaimInv (l : List Range) : Prop :=
  List.Chain' (fun a b => a.1 < b.1) l ∧ Adjac l ∧ ∀ r ∈ l, 0 ≤ r.1

/-- Executable chain check (Mathlib's `Chain'` decidability instance is
not kernel-reducible, so counterexamples evaluate this one). -/
def chainB (p : Range → Range → Bool) : List Range → Bool
  | [] => true
  | [_] => true
  | a :: b :: t => p a b && chainB p (b :: t)

theorem chainB_iff (p : Range → Range → Bool) :
    ∀ l : List Range,
      chainB p l = true ↔ List.Chain' (fun a b => p a b = true) l := by
  intro l
  match l with
  | [] => simp [chainB]
  | [a] => simp [chainB]
  | a :: b :: t =>
      rw [List.chain'_cons]
      rw [← chainB_iff p (b :: t)]
      simp [chainB]

instance (l : List Range) : Decidable (Adjac l) :=
  decidable_of_iff (chainB (fun a b => decide (a.2 < b.1)) l = true)
    (by rw [chainB_iff]; simp only [decide_eq_true_eq]; exact Iff.rfl)

instance (l : List Range) : Decidable (Inv l) :=
  inferInstanceAs (Decidable (Adjac l ∧ ∀ r ∈ l, validR r))

instance (l : List Range) : Decidable (List.Chain' (fun a b : Range => a.1 < b.1) l) :=
  decidable_of_iff (chainB (fun a b => decide (a.1 < b.1)) l = true)
    (by rw [chainB_iff]; simp only [decide_eq_true_eq])

instance (l : List Range) : Decidable (ClaimInv l) :=
  inferInstanceAs (Decidable (List.Chain' (fun a b : Range => a.1 < b.1) l ∧
    Adjac l ∧ ∀ r ∈ l, 0 ≤ r.1))

theorem overlap_iff (a b : Range) :
    ranges_overlap a b = true ↔
      (b.1 ≤ a.1 ∧ a.1 ≤ b.2) ∨ (a.1 ≤ b.1 ∧ b.1 ≤ a.2) := by
  simp [ranges_overlap, ge_iff_le]

theorem not_overlap_of_sorted {a b : Range} (hab : a.1 ≤ b.1)
    (h : ¬ ranges_overlap a b = true) : a.2 < b.1 := by
  rw [overlap_iff] at h
  omega

theorem merge_fst {a b : Range} (ha : 0 ≤ a.1) (hab : a.1 ≤ b.1) :
    (merge_ranges a b).1 = a.1 := by
  simp only [merge_ranges]
  omega

theorem merge_valid {a b : Range} (ha : validR a) (_hb : validR b) :
    validR (merge_ranges a b) := by
  simp only [validR, merge_ranges] at *
  constructor
  · omega
  · omega

theorem consolidateAux_spec :
    ∀ (rest : List Range) (acc : Range),
      List.Chain' (fun a b => a.1 ≤ b.1) (acc :: rest) →
      (∀ r ∈ acc :: rest, validR r) →
      Inv (consolidateAux acc rest) ∧ consolidateAux acc rest ≠ [] ∧
        ((consolidateAux acc rest).headD (0, 0)).1 = acc.1 := by
  intro rest
  induction rest with
  | nil =>
      intro acc _ hv
      have hacc : validR acc := hv acc (by simp)
      refine ⟨⟨?_, ?_⟩, ?_, ?_⟩ <;> simp [consolidateAux, Adjac]
      exact hacc
  | cons r2 rest ih =>
      intro acc hs hv
      have hacc : validR acc := hv acc (by simp)
      have hr2 : validR r2 := hv r2 (by simp)
      have hle : acc.1 ≤ r2.1 := (List.chain'_cons.mp hs).1
      cases hov : ranges_overlap acc r2 with
      | true =>
          have hm1 : (merge_ranges acc r2).1 = acc.1 := merge_fst hacc.1 hle
          have hchain : List.Chain' (fun a b => a.1 ≤ b.1) (merge_ranges acc r2 :: rest) := by
            rw [List.chain'_cons']
            refine ⟨?_, ((List.chain'_cons.mp hs).2).tail⟩
            intro y hy
            have := (List.chain'_cons'.mp (List.chain'_cons.mp hs).2).1 y hy
            omega
          have hvm : ∀ r ∈ merge_ranges acc r2 :: rest, validR r := by
            intro r hr
            rcases List.mem_cons.mp hr with h | h
            · subst h
              exact merge_valid hacc hr2
            · exact hv r (by simp [h])
          have := ih (merge_ranges acc r2) hchain hvm
          simpa [consolidateAux, hov, hm1] using this
      | false =>
          have hadj : acc.2 < r2.1 := not_overlap_of_sorted hle (by simp [hov])
          have hrest : ∀ r ∈ r2 :: rest, validR r := by
            intro r hr
            exact hv r (by simp [List.mem_cons] at hr ⊢; tauto)
          obtain ⟨⟨hA, hV⟩, hne, hhd⟩ := ih r2 (List.chain'_cons.mp hs).2 hrest
          have hres : consolidateAux acc (r2 :: rest) = acc :: consolidateAux r2 rest := by
            simp [consolidateAux, hov]
          rw [hres]
          refine ⟨⟨?_, ?_⟩, by simp, by simp⟩
          · rw [Adjac, List.chain'_cons']
            refine ⟨?_, hA⟩
            intro y hy
            cases hcons : consolidateAux r2 rest with
            | nil => exact absurd hcons hne
            | cons h t =>
                rw [hcons] at hy hhd
                simp at hy hhd
                subst hy
                omega
          · intro r hr
            rcases List.mem_cons.mp hr with h | h
            · subst h
              exact hacc
            · exact hV r h

theorem consolidate_inv (l : List Range)
    (hs : List.Chain' (fun a b => a.1 ≤ b.1) l)
    (hv : ∀ r ∈ l, validR r) :
    Inv (consolidate_overlapping_ranges l) := by
  cases l with
  | nil =>
      constructor <;> simp [consolidate_overlapping_ranges, Adjac]
  | cons r rest => exact (consolidateAux_spec rest r hs hv).1

end Subs2cia

/-! ## Index-level consequences of the invariant -/

namespace Subs2cia

theorem nthR_eq (l : List Range) {i : Nat} (h : i < l.length) :
    nthR l i = l[i] := List.getD_eq_getElem l (0, 0) h

theorem valid_nth {l : List Range} (hv : ∀ r ∈ l, validR r) {i : Nat}
    (h : i < l.length) : validR (nthR l i) := by
  rw [nthR_eq l h]
  exact hv _ (l.getElem_mem h)

theorem adjac_get {l : List Range} (hA : Adjac l) {i : Nat}
    (h : i + 1 < l.length) : (nthR l i).2 < (nthR l (i + 1)).1 := by
  have := List.chain'_iff_get.mp hA i (by omega)
  rw [nthR_eq l (by omega), nthR_eq l h]
  simpa [List.get_eq_getElem] using this

theorem end_lt_start {l : List Range} (hInv : Inv l) :
    ∀ i j : Nat, i < j → j < l.length → (nthR l i).2 < (nthR l j).1 := by
  obtain ⟨hA, hV⟩ := hInv
  intro i j hij hj
  induction j, hij using Nat.le_induction with
  | base => exact adjac_get hA hj
  | succ n hn ih =>
      have hn' : n < l.length := by omega
      have h1 := ih hn'
      have h2 := (valid_nth hV hn').2
      have h3 := adjac_get hA hj
      omega

theorem starts_lt {l : List Range} (hInv : Inv l) :
    ∀ i j : Nat, i < j → j < l.length → (nthR l i).1 < (nthR l j).1 := by
  intro i j hij hj
  have h1 := (valid_nth hInv.2 (by omega : i < l.length)).2
  have h2 := end_lt_start hInv i j hij hj
  omega

theorem getIndexLoop_spec (l : List Range) (s : Int)
    (hmono : ∀ i j : Nat, i < j → j < l.length → (nthR l i).1 < (nthR l j).1) :
    ∀ (fuel low high : Nat), low ≤ high → high ≤ l.length →
      high - low ≤ fuel →
      (∀ j, j < low → (nthR l j).1 < s) →
      (∀ j, high ≤ j → j < l.length → s ≤ (nthR l j).1) →
      getIndexLoop l s fuel low high ≤ l.length ∧
      (∀ j, j < getIndexLoop l s fuel low high → (nthR l j).1 < s) ∧
      (∀ j, getIndexLoop l s fuel low high ≤ j → j < l.length →
        s ≤ (nthR l j).1) := by
  intro fuel
  induction fuel with
  | zero =>
      intro low high hlh hhl hf hlow hhigh
      have heq : low = high := by omega
      subst heq
      simp only [getIndexLoop]
      exact ⟨by omega, fun j hj => hlow j hj, fun j hj hj2 => hhigh j (by omega) hj2⟩
  | succ fuel ih =>
      intro low high hlh hhl hf hlow hhigh
      by_cases h : low < high
      · have hmid1 : low ≤ (low + high) / 2 := by omega
        have hmid2 : (low + high) / 2 < high := by omega
        have hmidlen : (low + high) / 2 < l.length := by omega
        simp only [getIndexLoop, if_pos h]
        by_cases he : (nthR l ((low + high) / 2)).1 = s
        · simp only [if_pos he]
          refine ⟨by omega, ?_, ?_⟩
          · intro j hj
            have := hmono j ((low + high) / 2) hj hmidlen
            omega
          · intro j hj hj2
            rcases Nat.eq_or_lt_of_le hj with h1 | h1
            · rw [← h1]
              omega
            · have := hmono ((low + high) / 2) j h1 hj2
              omega
        · simp only [if_neg he]
          by_cases hlt : (nthR l ((low + high) / 2)).1 < s
          · simp only [if_pos hlt]
            refine ih ((low + high) / 2 + 1) high (by omega) hhl (by omega) ?_ hhigh
            intro j hj
            by_cases h1 : j = (low + high) / 2
            · rw [h1]
              exact hlt
            · have := hmono j ((low + high) / 2) (by omega) hmidlen
              omega
          · simp only [if_neg hlt]
            refine ih low ((low + high) / 2) hmid1 (by omega) (by omega) hlow ?_
            intro j hj hj2
            rcases Nat.eq_or_lt_of_le hj with h1 | h1
            · rw [← h1]
              omega
            · have := hmono ((low + high) / 2) j h1 hj2
              omega
      · simp only [getIndexLoop, if_neg h]
        have heq : low = high := by omega
        subst heq
        exact ⟨by omega, fun j hj => hlow j hj, fun j hj hj2 => hhigh j (by omega) hj2⟩

theorem get_index_spec (l : List Range) (s : Int) (hInv : Inv l) :
    get_index l s ≤ l.length ∧
    (∀ j, j < get_index l s → (nthR l j).1 < s) ∧
    (∀ j, get_index l s ≤ j → j < l.length → s ≤ (nthR l j).1) := by
  have hmono := starts_lt hInv
  unfold get_index
  by_cases h0 : l.length = 0
  · simp only [if_pos h0]
    exact ⟨by omega, by omega, by intro j _ hj; omega⟩
  · simp only [if_neg h0]
    by_cases h1 : (nthR l 0).1 > s
    · simp only [if_pos h1]
      refine ⟨by omega, by omega, ?_⟩
      intro j _ hj
      rcases Nat.eq_zero_or_pos j with h | h
      · subst h
        omega
      · have := hmono 0 j h hj
        omega
    · simp only [if_neg h1]
      by_cases h2 : (nthR l (l.length - 1)).1 < s
      · simp only [if_pos h2]
        refine ⟨le_refl _, ?_, by intro j hj hj2; omega⟩
        intro j hj
        rcases Nat.eq_or_lt_of_le (by omega : j ≤ l.length - 1) with h | h
        · rw [h]
          exact h2
        · have := hmono j (l.length - 1) h (by omega)
          omega
      · simp only [if_neg h2]
        exact getIndexLoop_spec l s hmono l.length 0 l.length (by omega)
          (le_refl _) (by omega) (by omega)
          (by intro j hj hj2; omega)

end Subs2cia

/-! ## The cumulative-skip vector -/

namespace Subs2cia

/-- The cumulative skip at a natural index, read off the rebuilt
vector. -/
def skipN (l : List Range) (k : Nat) : Int :=
  (rebuild_cumulative_skip l).getD k 0

theorem rebuildAux_length : ∀ (rest : List Range) (p a : Int),
    (rebuildAux p a rest).length = rest.length := by
  intro rest
  induction rest with
  | nil => intro p a; rfl
  | cons r t ih => intro p a; simp [rebuildAux, ih]

theorem rebuild_length (l : List Range) :
    (rebuild_cumulative_skip l).length = l.length := by
  cases l with
  | nil => rfl
  | cons r t => simp [rebuild_cumulative_skip, rebuildAux_length]

theorem cumSkip_ofNat (l : List Range) (k : Nat) :
    cumSkip l (k : Int) = skipN l k := by
  simp [cumSkip, skipN, pyGetD]

theorem cumSkip_neg_one (l : List Range) :
    cumSkip l (-1) = skipN l (l.length - 1) := by
  simp [cumSkip, skipN, pyGetD, rebuild_length]

theorem skipN_zero (r : Range) (t : List Range) : skipN (r :: t) 0 = r.1 := rfl

theorem rebuildAux_succ : ∀ (t : List Range) (p a : Int) (k : Nat),
    k + 1 < t.length →
    (rebuildAux p a t).getD (k + 1) 0 =
      (rebuildAux p a t).getD k 0 + ((nthR t (k + 1)).1 - (nthR t k).2) := by
  intro t
  induction t with
  | nil => intro p a k hk; simp at hk
  | cons r t1 ih =>
      intro p a k hk
      cases k with
      | zero =>
          cases t1 with
          | nil => simp at hk
          | cons r1 t2 => simp [rebuildAux, nthR]
      | succ k1 =>
          have := ih r.2 (a + (r.1 - p)) k1 (by simpa using hk)
          simp only [rebuildAux, List.getD_cons_succ, nthR, List.getD_cons_zero] at this ⊢
          exact this

theorem skipN_succ {l : List Range} {k : Nat} (hk : k + 1 < l.length) :
    skipN l (k + 1) = skipN l k + ((nthR l (k + 1)).1 - (nthR l k).2) := by
  cases l with
  | nil => simp at hk
  | cons r t =>
      cases k with
      | zero =>
          cases t with
          | nil => simp at hk
          | cons r1 t2 => simp [skipN, rebuild_cumulative_skip, rebuildAux, nthR]
      | succ k1 =>
          have := rebuildAux_succ t r.2 r.1 k1 (by simpa using hk)
          simp only [skipN, rebuild_cumulative_skip, List.getD_cons_succ, nthR,
            List.getD_cons_succ] at this ⊢
          simpa [nthR] using this

theorem skipN_le_start {l : List Range} (hInv : Inv l) :
    ∀ k, k < l.length → skipN l k ≤ (nthR l k).1 := by
  intro k
  induction k with
  | zero =>
      intro hk
      cases l with
      | nil => simp at hk
      | cons r t => simp [skipN_zero, nthR]
  | succ k ih =>
      intro hk
      have h1 := ih (by omega)
      have h2 := skipN_succ hk
      have h3 := (valid_nth hInv.2 (by omega : k < l.length)).2
      omega

theorem skipN_mono {l : List Range} (hInv : Inv l) :
    ∀ j k : Nat, j ≤ k → k < l.length → skipN l j ≤ skipN l k := by
  intro j k hjk hk
  induction k with
  | zero =>
      have : j = 0 := by omega
      subst this
      exact le_refl _
  | succ k ih =>
      rcases Nat.eq_or_lt_of_le hjk with h | h
      · rw [h]
      · have h1 := ih (by omega) (by omega)
        have h2 := skipN_succ hk
        have h3 := adjac_get hInv.1 hk
        omega

theorem ends_le {l : List Range} (hInv : Inv l) :
    ∀ i j : Nat, i ≤ j → j < l.length → (nthR l i).2 ≤ (nthR l j).2 := by
  intro i j hij hj
  rcases Nat.eq_or_lt_of_le hij with h | h
  · rw [h]
  · have h1 := end_lt_start hInv i j h hj
    have h2 := (valid_nth hInv.2 hj).2
    omega

/-! ## The two scan loops of `adjust_timing` -/

theorem backwardScan_spec {l : List Range} (hInv : Inv l) (s : Int) :
    ∀ i, i < l.length →
      backwardScan l s i ≤ i + 1 ∧
      (∀ k, k < backwardScan l s i → (nthR l k).2 < s) ∧
      (backwardScan l s i ≤ i → s ≤ (nthR l (backwardScan l s i)).2) := by
  intro i
  induction i with
  | zero =>
      intro h0
      by_cases h : (nthR l 0).2 < s
      · simp only [backwardScan, if_pos h]
        refine ⟨by omega, ?_, by omega⟩
        intro k hk
        have : k = 0 := by omega
        subst this
        exact h
      · simp only [backwardScan, if_neg h]
        exact ⟨by omega, by omega, fun _ => by omega⟩
  | succ i ih =>
      intro hi
      by_cases h : (nthR l (i + 1)).2 < s
      · simp only [backwardScan, if_pos h]
        refine ⟨by omega, ?_, by omega⟩
        intro k hk
        have := ends_le hInv k (i + 1) (by omega) hi
        omega
      · simp only [backwardScan, if_neg h]
        obtain ⟨ih1, ih2, ih3⟩ := ih (by omega)
        refine ⟨by omega, ih2, ?_⟩
        intro hle
        rcases Nat.eq_or_lt_of_le ih1 with he | hlt
        · rw [he]
          omega
        · exact ih3 (by omega)

theorem forwardScanF_spec {l : List Range} (e : Int) :
    ∀ (fuel i : Nat), i ≤ l.length → l.length - i ≤ fuel →
      ((i : Int) - 1 ≤ forwardScanF l e fuel i ∧
        forwardScanF l e fuel i ≤ (l.length : Int) - 1) ∧
      (∀ k : Nat, i ≤ k → (k : Int) ≤ forwardScanF l e fuel i →
        (nthR l k).1 ≤ e) ∧
      (forwardScanF l e fuel i + 1 < (l.length : Int) →
        e < (nthR l (forwardScanF l e fuel i + 1).toNat).1) := by
  intro fuel
  induction fuel with
  | zero =>
      intro i hi hf
      have : i = l.length := by omega
      subst this
      simp only [forwardScanF]
      refine ⟨⟨by omega, by omega⟩, ?_, by omega⟩
      intro k hk hk2
      omega
  | succ fuel ih =>
      intro i hi hf
      by_cases h : i < l.length
      · simp only [forwardScanF, if_pos h]
        by_cases hgt : (nthR l i).1 > e
        · simp only [if_pos hgt]
          refine ⟨⟨by omega, by omega⟩, ?_, ?_⟩
          · intro k hk hk2
            omega
          · intro hlen
            have : ((i : Int) - 1 + 1).toNat = i := by omega
            rw [this]
            exact hgt
        · simp only [if_neg hgt]
          obtain ⟨⟨iha, ihb⟩, ih2, ih3⟩ := ih (i + 1) (by omega) (by omega)
          refine ⟨⟨by omega, ihb⟩, ?_, ih3⟩
          intro k hk hk2
          rcases Nat.eq_or_lt_of_le hk with he | hlt
          · rw [← he]
            omega
          · exact ih2 k (by omega) hk2
      · simp only [forwardScanF, if_neg h]
        refine ⟨⟨by omega, by omega⟩, ?_, by omega⟩
        intro k hk hk2
        omega

theorem forwardScan_spec {l : List Range} (e : Int) (i : Nat)
    (hi : i ≤ l.length) :
    ((i : Int) - 1 ≤ forwardScan l e i ∧
      forwardScan l e i ≤ (l.length : Int) - 1) ∧
    (∀ k : Nat, i ≤ k → (k : Int) ≤ forwardScan l e i → (nthR l k).1 ≤ e) ∧
    (forwardScan l e i + 1 < (l.length : Int) →
      e < (nthR l (forwardScan l e i + 1).toNat).1) :=
  forwardScanF_spec e (l.length - i) i hi (le_refl _)

end Subs2cia

/-! ## The retimer: `adjust_timing` (spec 4.2) -/

namespace Subs2cia

theorem pyGetD_ofNat {α : Type} (l : List α) (k : Nat) (d : α) :
    pyGetD l (k : Int) d = l.getD k d := by
  simp [pyGetD]

theorem scans_pin {l : List Range} (hInv : Inv l) {s e : Int} {i g : Nat}
    (hi : i < l.length) (hs : (nthR l i).1 ≤ s) (he : e ≤ (nthR l i).2)
    (hse : s < e)
    (hg : g = i ∨ (g = i + 1 ∧ i + 1 < l.length ∧ (nthR l i).1 < s)) :
    backwardScan l s g = i ∧ forwardScan l e g = (i : Int) := by
  have hglen : g < l.length := by rcases hg with h | ⟨h, h2, _⟩ <;> omega
  obtain ⟨b1, b2, b3⟩ := backwardScan_spec hInv s g hglen
  obtain ⟨⟨f1a, f1b⟩, f2, f3⟩ := @forwardScan_spec l e g (by omega)
  have hvi := valid_nth hInv.2 hi
  constructor
  · have hFle : backwardScan l s g ≤ i := by
      by_contra hgt
      have := b2 i (by omega)
      omega
    rcases Nat.eq_or_lt_of_le hFle with hE | hL
    · exact hE
    · exfalso
      have h1 : s ≤ (nthR l (backwardScan l s g)).2 :=
        b3 (by rcases hg with h | ⟨h, _, _⟩ <;> omega)
      have h2 := end_lt_start hInv (backwardScan l s g) i hL hi
      omega
  · have hTub : forwardScan l e g ≤ (i : Int) := by
      by_contra hgt
      have hik : (i : Int) + 1 ≤ forwardScan l e g := by omega
      have hi1len : i + 1 < l.length := by omega
      have h1 := f2 (i + 1) (by rcases hg with h | ⟨h, _, _⟩ <;> omega)
        (by push_cast; omega)
      have h2 := adjac_get hInv.1 hi1len
      omega
    rcases hg with h | ⟨h, h2, h3⟩
    · subst h
      -- g = i; the lower bound gives T ≥ i - 1; exclude T = i - 1
      rcases eq_or_lt_of_le hTub with hE | hL
      · exact hE
      · exfalso
        have hTeq : forwardScan l e g = (g : Int) - 1 := by omega
        have hT1 : forwardScan l e g + 1 < (l.length : Int) := by omega
        have h4 := f3 hT1
        rw [hTeq] at h4
        have h5 : ((g : Int) - 1 + 1).toNat = g := by omega
        rw [h5] at h4
        omega
    · subst h
      omega

theorem adjust_timing_inside {l : List Range} (hInv : Inv l) {i : Nat}
    (hi : i < l.length) {s e : Int}
    (hs : (nthR l i).1 ≤ s) (he : e ≤ (nthR l i).2) (hse : s < e) :
    adjust_timing s e l = some (s - skipN l i, e - skipN l i) := by
  have hlen : ¬ l.length = 0 := by omega
  obtain ⟨g1, g2, g3⟩ := get_index_spec l s hInv
  have hvi := valid_nth hInv.2 hi
  have hG : get_index l s = i ∨
      (get_index l s = i + 1 ∧ (nthR l i).1 < s) := by
    by_cases hEq : s ≤ (nthR l i).1
    · left
      have hii : (nthR l i).1 = s := by omega
      by_cases hgt : get_index l s > i
      · have := g2 i hgt
        omega
      · by_cases hlt : get_index l s < i
        · have h1 := g3 (get_index l s) (le_refl _) (by omega)
          have h2 := starts_lt hInv (get_index l s) i hlt hi
          omega
        · omega
    · right
      refine ⟨?_, by omega⟩
      have hge : ¬ get_index l s ≤ i := by
        intro hle
        have := g3 i hle hi
        omega
      by_cases hgt : get_index l s > i + 1
      · have h1 := g2 (i + 1) hgt
        have h2 := adjac_get hInv.1 (show i + 1 < l.length by omega)
        omega
      · omega
  have hguess : (if get_index l s ≥ l.length then get_index l s - 1
      else get_index l s) = i ∨
      ((if get_index l s ≥ l.length then get_index l s - 1
      else get_index l s) = i + 1 ∧ i + 1 < l.length ∧ (nthR l i).1 < s) := by
    rcases hG with h | ⟨h, hlt⟩
    · left
      rw [h, if_neg (by omega)]
    · by_cases hend : i + 1 < l.length
      · right
        rw [h, if_neg (by omega)]
        exact ⟨rfl, hend, hlt⟩
      · left
        rw [h, if_pos (by omega)]
        omega
  obtain ⟨hFirst, hLast⟩ := scans_pin hInv hi hs he hse hguess
  unfold adjust_timing
  rw [if_neg hlen]
  simp only [hFirst, hLast]
  rw [if_neg (by omega : ¬ i ≥ l.length)]
  rw [pyGetD_ofNat]
  have hnth : l.getD i (0, 0) = nthR l i := rfl
  rw [hnth]
  rw [cumSkip_ofNat]
  have hs1 : (if (nthR l i).1 ≥ s then (nthR l i).1 else s) = s := by
    by_cases h : (nthR l i).1 ≥ s
    · rw [if_pos h]; omega
    · rw [if_neg h]
  have he1 : (if (nthR l i).2 ≤ e then (nthR l i).2 else e) = e := by
    by_cases h : (nthR l i).2 ≤ e
    · rw [if_pos h]; omega
    · rw [if_neg h]
  rw [hs1, he1]
  rw [if_neg (by omega : ¬ e - skipN l i ≤ s - skipN l i)]

end Subs2cia

namespace Subs2cia

theorem pyGetD_neg_one {α : Type} (l : List α) (d : α) :
    pyGetD l (-1) d = l.getD (l.length - 1) d := by
  simp [pyGetD]

theorem backwardScan_break {l : List Range} {s : Int} {g : Nat}
    (h : (nthR l g).2 < s) : backwardScan l s g = g + 1 := by
  cases g <;> simp [backwardScan, h]

theorem forwardScan_break {l : List Range} {e : Int} {g : Nat}
    (hg : g < l.length) (h : (nthR l g).1 > e) :
    forwardScan l e g = (g : Int) - 1 := by
  have hsub : l.length - g = (l.length - g - 1) + 1 := by omega
  rw [forwardScan, hsub]
  simp [forwardScanF, hg, h]

theorem adjust_timing_disjoint {l : List Range} (hInv : Inv l) {s e : Int}
    (_hs0 : 0 ≤ s) (hse : s ≤ e)
    (hdis : ∀ j, j < l.length → e < (nthR l j).1 ∨ (nthR l j).2 < s) :
    adjust_timing s e l = none := by
  by_cases hlen : l.length = 0
  · unfold adjust_timing
    rw [if_pos hlen]
  · obtain ⟨g1, g2, g3⟩ := get_index_spec l s hInv
    by_cases hex : ∃ j, j < l.length ∧ s ≤ (nthR l j).2
    · -- the split point k: first range whose end reaches s
      obtain ⟨k, hkn, hke, hbelow⟩ :
          ∃ k, k < l.length ∧ s ≤ (nthR l k).2 ∧
            ∀ j, j < k → (nthR l j).2 < s := by
        refine ⟨Nat.find hex, (Nat.find_spec hex).1, (Nat.find_spec hex).2, ?_⟩
        intro j hj
        have hmin := Nat.find_min hex hj
        push_neg at hmin
        have hjn : j < l.length := by
          have := (Nat.find_spec hex).1
          omega
        exact hmin hjn
      have habove : ∀ j, k ≤ j → j < l.length → e < (nthR l j).1 := by
        intro j hjk hjn
        rcases Nat.eq_or_lt_of_le hjk with h | h
        · rcases hdis k hkn with h1 | h1
          · rw [← h]; exact h1
          · omega
        · rcases hdis k hkn with h1 | h1
          · have := starts_lt hInv k j h hjn
            omega
          · omega
      -- get_index l s = k
      have hG : get_index l s = k := by
        have hub : ¬ get_index l s > k := by
          intro hgt
          have h1 := g2 k hgt
          have h2 := habove k (le_refl _) hkn
          omega
        have hlb : ¬ get_index l s < k := by
          intro hlt
          have h1 := g3 (get_index l s) (le_refl _) (by omega)
          have h2 := hbelow (get_index l s) hlt
          have h3 := (valid_nth hInv.2 (show get_index l s < l.length by omega)).2
          omega
        omega
      have hguess : (if get_index l s ≥ l.length then get_index l s - 1
          else get_index l s) = k := by
        rw [hG, if_neg (by omega)]
      -- backward scan pins to k
      obtain ⟨b1, b2, b3⟩ := backwardScan_spec hInv s k hkn
      have hFirst : backwardScan l s k = k := by
        have hne : backwardScan l s k ≠ k + 1 := by
          intro hEq
          have := b2 k (by omega)
          omega
        have hle : backwardScan l s k ≤ k := by omega
        rcases Nat.eq_or_lt_of_le hle with h | h
        · exact h
        · exfalso
          have := b3 (by omega)
          have := hbelow (backwardScan l s k) h
          omega
      have hLast : forwardScan l e k = (k : Int) - 1 :=
        forwardScan_break hkn (habove k (le_refl _) hkn)
      unfold adjust_timing
      rw [if_neg hlen]
      simp only [hguess, hFirst, hLast]
      rw [if_neg (by omega : ¬ k ≥ l.length)]
      rcases Nat.eq_zero_or_pos k with hk0 | hkpos
      · -- k = 0: Python reads index -1, the LAST range
        subst hk0
        rw [show ((0 : Nat) : Int) - 1 = -1 by omega]
        rw [pyGetD_neg_one, cumSkip_neg_one]
        rw [cumSkip_ofNat]
        have hs1 : (nthR l 0).1 ≥ s := by
          have := habove 0 (le_refl _) hkn
          omega
        rw [if_pos hs1]
        have hlast_end : ¬ (l.getD (l.length - 1) (0, 0)).2 ≤ e := by
          have h1 : (nthR l (l.length - 1)).1 ≤ (nthR l (l.length - 1)).2 :=
            (valid_nth hInv.2 (by omega)).2
          have h2 := habove (l.length - 1) (by omega) (by omega)
          show ¬ (nthR l (l.length - 1)).2 ≤ e
          omega
        rw [if_neg hlast_end]
        have hskip0 : skipN l 0 = (nthR l 0).1 := by
          cases l with
          | nil => simp at hlen
          | cons r t => simp [skipN_zero, nthR]
        have hmono := skipN_mono hInv 0 (l.length - 1) (by omega) (by omega)
        have hstart0 := habove 0 (le_refl _) hkn
        rw [if_pos (by omega : e - skipN l (l.length - 1) ≤ (nthR l 0).1 - skipN l 0)]
      · -- k ≥ 1: last index is k - 1 ≥ 0
        rw [show (k : Int) - 1 = ((k - 1 : Nat) : Int) by omega]
        rw [pyGetD_ofNat, cumSkip_ofNat, cumSkip_ofNat]
        have hs1 : (nthR l k).1 ≥ s := by
          have := habove k (le_refl _) hkn
          omega
        rw [if_pos hs1]
        have he1 : (l.getD (k - 1) (0, 0)).2 ≤ e := by
          have := hbelow (k - 1) (by omega)
          show (nthR l (k - 1)).2 ≤ e
          omega
        rw [if_pos he1]
        have hrec : skipN l k = skipN l (k - 1) + ((nthR l k).1 - (nthR l (k - 1)).2) := by
          have := skipN_succ (show (k - 1) + 1 < l.length by omega)
          rw [show (k - 1) + 1 = k by omega] at this
          exact this
        have : (l.getD (k - 1) (0, 0)).2 = (nthR l (k - 1)).2 := rfl
        rw [this]
        rw [if_pos (by omega : (nthR l (k - 1)).2 - skipN l (k - 1) ≤ (nthR l k).1 - skipN l k)]
    · -- no range end reaches s: every range lies strictly before s
      push_neg at hex
      have hG : get_index l s = l.length := by
        by_contra hne
        have h1 := g3 (get_index l s) (le_refl _) (by omega)
        have h2 := hex (get_index l s) (by omega)
        have h3 := (valid_nth hInv.2 (show get_index l s < l.length by omega)).2
        omega
      have hguess : (if get_index l s ≥ l.length then get_index l s - 1
          else get_index l s) = l.length - 1 := by
        rw [hG, if_pos (by omega)]
      have hFirst : backwardScan l s (l.length - 1) = l.length :=  by
        have := backwardScan_break (l := l) (s := s) (g := l.length - 1)
          (hex (l.length - 1) (by omega))
        rw [this]
        omega
      unfold adjust_timing
      rw [if_neg hlen]
      simp only [hguess, hFirst]
      rw [if_pos (le_refl _)]

end Subs2cia

namespace Subs2cia

/-- The clamped guess index of `adjust_timing` (`guess_idx -= 1` when
the binary search returned the list length). -/
def guessOf (l : List Range) (s : Int) : Nat :=
  if get_index l s ≥ l.length then get_index l s - 1 else get_index l s

theorem adjust_timing_eq_body (s e : Int) (l : List Range)
    (hlen : ¬ l.length = 0) :
    adjust_timing s e l =
      if backwardScan l s (guessOf l s) ≥ l.length then none
      else
        if (if (pyGetD l (forwardScan l e (guessOf l s)) (0, 0)).2 ≤ e
              then (pyGetD l (forwardScan l e (guessOf l s)) (0, 0)).2 else e)
            - cumSkip l (forwardScan l e (guessOf l s))
          ≤ (if (nthR l (backwardScan l s (guessOf l s))).1 ≥ s
              then (nthR l (backwardScan l s (guessOf l s))).1 else s)
            - cumSkip l (backwardScan l s (guessOf l s))
        then none
        else some
          ((if (nthR l (backwardScan l s (guessOf l s))).1 ≥ s
              then (nthR l (backwardScan l s (guessOf l s))).1 else s)
            - cumSkip l (backwardScan l s (guessOf l s)),
           (if (pyGetD l (forwardScan l e (guessOf l s)) (0, 0)).2 ≤ e
              then (pyGetD l (forwardScan l e (guessOf l s)) (0, 0)).2 else e)
            - cumSkip l (forwardScan l e (guessOf l s))) := by
  unfold adjust_timing guessOf
  rw [if_neg hlen]

theorem adjust_timing_sound {l : List Range} (hInv : Inv l) {s e s' e' : Int}
    (h : adjust_timing s e l = some (s', e')) : 0 ≤ s' ∧ s' < e' := by
  by_cases hlen : l.length = 0
  · unfold adjust_timing at h
    rw [if_pos hlen] at h
    simp at h
  · rw [adjust_timing_eq_body s e l hlen] at h
    by_cases h1 : backwardScan l s (guessOf l s) ≥ l.length
    · rw [if_pos h1] at h
      simp at h
    · rw [if_neg h1] at h
      by_cases h2 : (if (pyGetD l (forwardScan l e (guessOf l s)) (0, 0)).2 ≤ e
              then (pyGetD l (forwardScan l e (guessOf l s)) (0, 0)).2 else e)
            - cumSkip l (forwardScan l e (guessOf l s))
          ≤ (if (nthR l (backwardScan l s (guessOf l s))).1 ≥ s
              then (nthR l (backwardScan l s (guessOf l s))).1 else s)
            - cumSkip l (backwardScan l s (guessOf l s))
      · rw [if_pos h2] at h
        simp at h
      · rw [if_neg h2] at h
        have hpair := Option.some_injective _ h
        rw [Prod.mk.injEq] at hpair
        have hskip : cumSkip l (backwardScan l s (guessOf l s)) =
            skipN l (backwardScan l s (guessOf l s)) :=
          cumSkip_ofNat l _
        have hle := skipN_le_start hInv (backwardScan l s (guessOf l s)) (by omega)
        have hvf := valid_nth hInv.2 (show backwardScan l s (guessOf l s) < l.length by omega)
        constructor
        · rw [← hpair.1, hskip]
          by_cases h3 : (nthR l (backwardScan l s (guessOf l s))).1 ≥ s
          · rw [if_pos h3]
            omega
          · rw [if_neg h3]
            omega
        · rw [← hpair.1, ← hpair.2]
          rw [hskip] at h2 ⊢
          omega

theorem unparse_time_isSome {t : Int} (h : 0 ≤ t) :
    (unparse_time t).isSome = true := by
  unfold unparse_time
  rw [if_neg (by omega)]
  rfl

end Subs2cia

/-! ## Claim theorems for the retimer -/

namespace Subs2cia

/-- C2, amended: for every TimeRanges satisfying the §3 invariants
(sorted, non-overlapping, non-touching, valid non-negative intervals)
and every *non-degenerate* event `(s, e)` with `s < e` contained in
range `i` (`ranges[i].start ≤ s` and `e ≤ ranges[i].end`),
`adjust_timing` returns exactly `(s - S[i], e - S[i])`, where `S` is
the cumulative-skip sequence (`skipN`, built by
`rebuild_cumulative_skip`: `S[0] = ranges[0].start`,
`S[i] = S[i-1] + (ranges[i].start - ranges[i-1].end)`).  The original
claim omitted `s < e`: a degenerate event with `s = e` is dropped by
the final `e' ≤ s'` guard. -/
theorem C2_adjust_timing_contained {l : List Range} (hInv : Inv l)
    {i : Nat} (hi : i < l.length) {s e : Int}
    (hs : (nthR l i).1 ≤ s) (he : e ≤ (nthR l i).2) (hse : s < e) :
    adjust_timing s e l = some (s - skipN l i, e - skipN l i) :=
  adjust_timing_inside hInv hi hs he hse

/-- Witness for C2 at ranges `[(0, 100)]`, event `(10, 20)`. -/
theorem C2_adjust_timing_contained_witness :
    adjust_timing 10 20 [((0 : Int), (100 : Int))] =
      some (10 - skipN [((0 : Int), (100 : Int))] 0,
            20 - skipN [((0 : Int), (100 : Int))] 0) :=
  @C2_adjust_timing_contained [((0 : Int), (100 : Int))] (by decide) 0
    (by decide) 10 20 (by decide) (by decide) (by decide)

/-- Counterexample to C2 as stated: the degenerate event `(50, 50)` is
contained in the single range `(0, 100)` of a TimeRanges satisfying
every §3 invariant, yet `adjust_timing` drops it (`none`) instead of
returning `(50 - S[0], 50 - S[0]) = (50, 50)`. -/
theorem C2_counterexample :
    ClaimInv [((0 : Int), (100 : Int))] ∧
    validR ((0 : Int), (100 : Int)) ∧
    (nthR [((0 : Int), (100 : Int))] 0).1 ≤ 50 ∧
    (50 : Int) ≤ (nthR [((0 : Int), (100 : Int))] 0).2 ∧
    adjust_timing 50 50 [((0 : Int), (100 : Int))] ≠
      some (50 - skipN [((0 : Int), (100 : Int))] 0,
            50 - skipN [((0 : Int), (100 : Int))] 0) := by
  decide

/-- C3: for every TimeRanges satisfying the §3 invariants and every
event `0 ≤ s ≤ e` whose closed interval `[s, e]` misses every range
(each range lies entirely after `e` or entirely before `s` — this
covers events before the first range, inside a gap, and after the last
range), `adjust_timing` drops the event. -/
theorem C3_adjust_timing_disjoint_drop {l : List Range} (hInv : Inv l)
    {s e : Int} (hs0 : 0 ≤ s) (hse : s ≤ e)
    (hdis : ∀ r ∈ l, e < r.1 ∨ r.2 < s) :
    adjust_timing s e l = none := by
  refine adjust_timing_disjoint hInv hs0 hse ?_
  intro j hj
  have hmem : nthR l j ∈ l := by
    rw [nthR_eq l hj]
    exact l.getElem_mem hj
  exact hdis (nthR l j) hmem

/-- Witness for C3 at ranges `[(0, 10), (20, 30)]`, event `(12, 15)`
inside the gap. -/
theorem C3_adjust_timing_disjoint_drop_witness :
    adjust_timing 12 15 [((0 : Int), (10 : Int)), ((20 : Int), (30 : Int))] = none :=
  @C3_adjust_timing_disjoint_drop
    [((0 : Int), (10 : Int)), ((20 : Int), (30 : Int))] (by decide) 12 15
    (by decide) (by decide) (by decide)

/-- C10: under the §3 invariants and `0 ≤ s ≤ e`, whenever
`adjust_timing` returns a pair `(s', e')` (rather than dropping), the
pair satisfies `0 ≤ s' < e'`; consequently `unparse_time` succeeds on
both components (its negative-input `ValueError` branch is unreachable
when the rewriter serializes retimed events). -/
theorem C10_adjust_timing_output_safe {l : List Range} (hInv : Inv l)
    {s e s' e' : Int} (_hs0 : 0 ≤ s) (_hse : s ≤ e)
    (h : adjust_timing s e l = some (s', e')) :
    0 ≤ s' ∧ s' < e' ∧
    (unparse_time s').isSome = true ∧ (unparse_time e').isSome = true := by
  obtain ⟨h1, h2⟩ := adjust_timing_sound hInv h
  exact ⟨h1, h2, unparse_time_isSome h1, unparse_time_isSome (by omega)⟩

/-- Witness for C10 at ranges `[(20, 80)]`, event `(0, 100)` (clipped
to `(0, 60)`). -/
theorem C10_adjust_timing_output_safe_witness :
    0 ≤ (0 : Int) ∧ (0 : Int) < 60 ∧
    (unparse_time (0 : Int)).isSome = true ∧
    (unparse_time (60 : Int)).isSome = true :=
  @C10_adjust_timing_output_safe [((20 : Int), (80 : Int))] (by decide)
    0 100 0 60 (by decide) (by decide) (by decide)

end Subs2cia

/-! ## Claim computations: the discarded rescale (C4) and the stale
cache (C7) -/

namespace Subs2cia

/-- C4: the rewriter `retime` opens with
`time_ranges.with_units_per_second(100)` but discards the returned
copy, so every event is adjusted against the ORIGINAL units.  At the
failing input — ranges `[(5, 8)]` at 10 UPS and the dialogue event
`0:00:00.60 → 0:00:00.70` (60, 70 in hundredths) — the claim requires
the per-event result of `adjust_timing` on the rescaled ranges
`[(50, 80)]`, namely `(10, 20)`; the code instead evaluates
`adjust_timing 60 70 [(5, 8)]`, which drops the event, and the
rewritten stream contains no dialogue line. -/
theorem C4_retime_rescale_discarded :
    (TimeRanges.mk' [((5 : Int), (8 : Int))] 10).with_units_per_second 100 =
      some (TimeRanges.mk [(50, 80)] 100 none) ∧
    adjust_timing 60 70 [((50 : Int), (80 : Int))] = some (10, 20) ∧
    adjust_timing 60 70 [((5 : Int), (8 : Int))] = none ∧
    retime (TimeRanges.mk' [((5 : Int), (8 : Int))] 10)
      [("[Events]\n".toList), ("Format: Start, End, Text\n".toList),
       ("Dialogue: 0:00:00.60,0:00:00.70,hello\n".toList)] =
      some ("[Events]\nFormat: Start, End, Text\n".toList) := by
  decide

/-- C7: `add` fails to invalidate the cumulative-skip cache when the
set was empty: `_consolidate_overlapping_ranges_around` returns before
clearing the cache when the post-insert list has length ≤ 1.  Failing
run: on an empty `TimeRanges`, `get_cumulative_skip(0)` populates the
cache with `[]` (and raises `IndexError`, modelled as `none`); `add
100 500` then leaves that cache in place; the subsequent
`get_cumulative_skip(0)` still reads the stale `[]` and raises,
although the correct vector for `[(100, 500)]` is `[100]`. -/
theorem C7_add_leaves_stale_cache :
    (TimeRanges.get_cumulative_skip (TimeRanges.create_empty 1000) 0).1 = none ∧
    (TimeRanges.get_cumulative_skip
        (TimeRanges.create_empty 1000) 0).2._cached_cumulative_skip = some [] ∧
    TimeRanges.add
        ((TimeRanges.get_cumulative_skip (TimeRanges.create_empty 1000) 0).2)
        100 500 =
      TimeRanges.mk [(100, 500)] 1000 (some []) ∧
    (TimeRanges.get_cumulative_skip
        (TimeRanges.add
          ((TimeRanges.get_cumulative_skip (TimeRanges.create_empty 1000) 0).2)
          100 500) 0).1 = none ∧
    rebuild_cumulative_skip [((100 : Int), (500 : Int))] = [100] := by
  decide

end Subs2cia

/-! ## Claim theorems for the ASS rewriter and parser FSM -/

namespace Subs2cia

/-- C5, amended: during ASS rewrite every input line that is not a
recognized dialogue line (all lines in SEEK_EVENTS and READ_FORMAT,
blank lines and non-Dialogue lines in READ_EVENTS) is emitted as the
line with its trailing whitespace stripped followed by a single
newline — not byte-for-byte verbatim: the rewriter runs
`ln = ln.rstrip()` on every line before writing it back.  (When the
step raises instead, nothing is written.) -/
theorem C5_nondialogue_normalized {ranges : List Range} {st : RState}
    {line : List Char} {st' : RState} {out : List Char}
    (h : retimeStep ranges st line = some (st', out))
    (hnd : ∀ fmt si ei, st = RState.get_events fmt si ei →
      startswith ("Dialogue:".toList) (rstrip line) = false) :
    out = rstrip line ++ ['\n'] := by
  cases st with
  | skip_until_events =>
      by_cases hev : rstrip line = ("[Events]".toList)
      · simp only [retimeStep, if_pos hev] at h
        cases h
        rfl
      · simp only [retimeStep, if_neg hev] at h
        cases h
        rfl
  | get_format =>
      by_cases hf : startswith ("Format:".toList) (rstrip line) = true
      · simp only [retimeStep, hf] at h
        rcases he : list_index ("End".toList)
            ((split_on ',' ((rstrip line).drop 7)).map strip) with _ | ei
        · rw [he] at h
          simp at h
        · rcases hs : list_index ("Start".toList)
              ((split_on ',' ((rstrip line).drop 7)).map strip) with _ | si
          · rw [he, hs] at h
            simp at h
          · rw [he, hs] at h
            simp at h
            exact h.2.symm
      · have hf' : startswith ("Format:".toList) (rstrip line) = false := by
          simpa using hf
        simp only [retimeStep, hf'] at h
        simp at h
  | get_events fmt si ei =>
      have hd := hnd fmt si ei rfl
      by_cases hb : rstrip line = ([] : List Char)
      · simp only [retimeStep, if_pos hb] at h
        cases h
        rw [hb]
      · simp only [retimeStep, if_neg hb, hd] at h
        simp at h
        exact h.2.symm


/-- Witness for C5: a SEEK_EVENTS line is echoed stripped with a
newline appended. -/
theorem C5_nondialogue_normalized_witness :
    ("foo\n".toList : List Char) = rstrip ("foo  \n".toList) ++ ['\n'] :=
  @C5_nondialogue_normalized [((0 : Int), (100 : Int))]
    RState.skip_until_events ("foo  \n".toList) RState.skip_until_events
    ("foo\n".toList) (by decide)
    (by intro fmt si ei h; cases h)

/-- Counterexample to C5 as stated: the non-dialogue line
`"foo  \n"` (trailing spaces before the newline) is rewritten to
`"foo\n"`, so it is not copied byte-for-byte. -/
theorem C5_counterexample :
    retime (TimeRanges.mk' [((0 : Int), (100 : Int))] 100)
        [("foo  \n".toList)] = some ("foo\n".toList) ∧
    ("foo\n".toList : List Char) ≠ ("foo  \n".toList : List Char) := by
  decide

/-- C9, amended: after `[Events]` the parser requires the IMMEDIATELY
following line to start with `Format:` — blank lines are not skipped
(a blank line raises `Malformed`).  In the `READ_FORMAT` state the
step raises exactly when that line does not start with `Format:`, or
the format list lacks `End`, `Start` or `Text`, or `Text` is not the
last field. -/
theorem C9_format_line_strict (line : List Char) :
    parseStep PState.get_format line = none ↔
      (startswith ("Format:".toList) (rstrip line) = false ∨
       list_index ("End".toList)
         ((split_on ',' ((rstrip line).drop 7)).map strip) = none ∨
       list_index ("Start".toList)
         ((split_on ',' ((rstrip line).drop 7)).map strip) = none ∨
       list_index ("Text".toList)
         ((split_on ',' ((rstrip line).drop 7)).map strip) = none ∨
       ∃ t, list_index ("Text".toList)
              ((split_on ',' ((rstrip line).drop 7)).map strip) = some t ∧
            t ≠ ((split_on ',' ((rstrip line).drop 7)).map strip).length - 1) := by
  by_cases hf : startswith ("Format:".toList) (rstrip line) = true
  · simp only [parseStep, hf]
    rcases he : list_index ("End".toList)
        ((split_on ',' ((rstrip line).drop 7)).map strip) with _ | ei
    · simp [hf]
    · rcases hs : list_index ("Start".toList)
          ((split_on ',' ((rstrip line).drop 7)).map strip) with _ | si
      · simp [hf]
      · rcases ht : list_index ("Text".toList)
            ((split_on ',' ((rstrip line).drop 7)).map strip) with _ | ti
        · simp [hf]
        · by_cases hti : ti = ((split_on ',' ((rstrip line).drop 7)).map strip).length - 1
          · simp [hf, hti]
          · simp [hf, hti]
  · have hf' : startswith ("Format:".toList) (rstrip line) = false := by
      simpa using hf
    rw [hf'] at hf ⊢
    simp only [parseStep, hf']
    simp


/-- Witness for C9: a blank line in READ_FORMAT raises. -/
theorem C9_format_line_strict_witness :
    parseStep PState.get_format ("\n".toList) = none :=
  (C9_format_line_strict ("\n".toList)).mpr (Or.inl (by decide))

/-- Counterexample to C9 as stated: with an intervening blank line
between `[Events]` and a well-formed `Format:` line, `parse` raises
(returns `none`), although the next NON-BLANK line does start with
`Format:`; without the blank line the same document parses. -/
theorem C9_counterexample :
    parse [("[Events]\n".toList), ("\n".toList),
           ("Format: Start, End, Text\n".toList)] = none ∧
    parse [("[Events]\n".toList),
           ("Format: Start, End, Text\n".toList)] =
      some ⟨[], 100⟩ := by
  decide

end Subs2cia

/-! ## The time codec round trip (C6) -/

namespace Subs2cia

theorem natReprAux_congr : ∀ (n f f' : Nat), n < f → n < f' →
    natReprAux f n = natReprAux f' n := by
  intro n
  induction n using Nat.strong_induction_on with
  | _ n ih =>
      intro f f' hf hf'
      cases f with
      | zero => omega
      | succ g =>
          cases f' with
          | zero => omega
          | succ g' =>
              by_cases h : n < 10
              · simp [natReprAux, h]
              · simp only [natReprAux, if_neg h]
                rw [ih (n / 10) (by omega) g g' (by omega) (by omega)]

theorem natRepr_eq (n : Nat) : natRepr n =
    if n < 10 then [digitChar n]
    else natRepr (n / 10) ++ [digitChar (n % 10)] := by
  by_cases h : n < 10
  · simp [natRepr, natReprAux, h]
  · rw [natRepr]
    simp only [natReprAux, if_neg h]
    rw [natReprAux_congr (n / 10) n (n / 10 + 1) (by omega) (by omega)]
    rfl

theorem natRepr_ne_nil (n : Nat) : natRepr n ≠ [] := by
  rw [natRepr_eq]
  by_cases h : n < 10 <;> simp [h]

theorem natRepr_digits (n : Nat) :
    ∀ c ∈ natRepr n, ∃ d, d < 10 ∧ c = digitChar d := by
  induction n using Nat.strong_induction_on with
  | _ n ih =>
      rw [natRepr_eq]
      by_cases h : n < 10
      · simp only [if_pos h, List.mem_singleton]
        intro c hc
        exact ⟨n, h, hc⟩
      · simp only [if_neg h, List.mem_append, List.mem_singleton]
        intro c hc
        rcases hc with hc | hc
        · exact ih (n / 10) (by omega) c hc
        · exact ⟨n % 10, by omega, hc⟩

theorem digitChar_toNat {d : Nat} (h : d < 10) :
    (digitChar d).toNat = 48 + d := by
  interval_cases d <;> decide

theorem digitsVal_append_singleton (a : List Char) (c : Char) :
    digitsVal (a ++ [c]) = 10 * digitsVal a + (c.toNat - 48) := by
  simp [digitsVal, List.foldl_append]

theorem digitsVal_natRepr (n : Nat) : digitsVal (natRepr n) = n := by
  induction n using Nat.strong_induction_on with
  | _ n ih =>
      rw [natRepr_eq]
      by_cases h : n < 10
      · simp [if_pos h, digitsVal, digitChar_toNat h]
      · rw [if_neg h, digitsVal_append_singleton, ih (n / 10) (by omega),
          digitChar_toNat (show n % 10 < 10 by omega)]
        omega

theorem pyWhitespace_digitChar {d : Nat} (h : d < 10) :
    pyWhitespace (digitChar d) = false := by
  interval_cases d <;> decide

theorem isDigitChar_digitChar {d : Nat} (h : d < 10) :
    isDigitChar (digitChar d) = true := by
  interval_cases d <;> decide

theorem digitChar_ne_colon {d : Nat} (h : d < 10) : digitChar d ≠ ':' := by
  interval_cases d <;> decide

theorem digitChar_ne_dot {d : Nat} (h : d < 10) : digitChar d ≠ '.' := by
  interval_cases d <;> decide

theorem digitChar_ne_minus {d : Nat} (h : d < 10) : digitChar d ≠ '-' := by
  interval_cases d <;> decide

theorem digitChar_ne_plus {d : Nat} (h : d < 10) : digitChar d ≠ '+' := by
  interval_cases d <;> decide

theorem strip_digits (s : List Char) (hne : s ≠ [])
    (hd : ∀ c ∈ s, ∃ d, d < 10 ∧ c = digitChar d) : strip s = s := by
  have hr : rstrip s = s := by
    unfold rstrip
    cases hrev : s.reverse with
    | nil =>
        exact absurd (by simpa using congrArg List.reverse hrev) hne
    | cons c t =>
        have hc : c ∈ s := by
          rw [← List.mem_reverse, hrev]
          simp
        obtain ⟨d, hd10, hcd⟩ := hd c hc
        have hw : pyWhitespace c = false := by
          rw [hcd]
          exact pyWhitespace_digitChar hd10
        rw [List.dropWhile_cons, hw]
        simp only [Bool.false_eq_true, if_false]
        rw [← hrev, List.reverse_reverse]
  unfold strip
  rw [hr]
  unfold lstrip
  cases hs : s with
  | nil => rfl
  | cons c t =>
      obtain ⟨d, hd10, hcd⟩ := hd c (by rw [hs]; simp)
      have hw : pyWhitespace c = false := by
        rw [hcd]
        exact pyWhitespace_digitChar hd10
      rw [List.dropWhile_cons, hw]
      simp

theorem pyInt_digits (s : List Char) (hne : s ≠ [])
    (hd : ∀ c ∈ s, ∃ d, d < 10 ∧ c = digitChar d) :
    pyInt s = some ((digitsVal s : Int)) := by
  have hall : s.all isDigitChar = true := by
    rw [List.all_eq_true]
    intro c hc
    obtain ⟨d, hd10, hcd⟩ := hd c hc
    rw [hcd]
    exact isDigitChar_digitChar hd10
  unfold pyInt
  rw [strip_digits s hne hd]
  split
  · exfalso
    obtain ⟨d, hd10, hcd⟩ := hd '-' (List.mem_cons_self _ _)
    exact digitChar_ne_minus hd10 hcd.symm
  · exfalso
    obtain ⟨d, hd10, hcd⟩ := hd '+' (List.mem_cons_self _ _)
    exact digitChar_ne_plus hd10 hcd.symm
  · rw [if_pos ⟨hne, hall⟩]


/-- The canonical two-digit rendering `str(n).rjust(2, '0')`. -/
def pad2 (n : Nat) : List Char := rjust (natRepr n) 2 '0'

theorem pad2_digits {m : Nat} (_h : m < 100) :
    ∀ c ∈ pad2 m, ∃ d, d < 10 ∧ c = digitChar d := by
  intro c hc
  unfold pad2 rjust at hc
  by_cases hl : 2 ≤ (natRepr m).length
  · rw [if_pos hl] at hc
    exact natRepr_digits m c hc
  · rw [if_neg hl] at hc
    rcases List.mem_append.mp hc with h | h
    · have := List.eq_of_mem_replicate h
      exact ⟨0, by omega, this⟩
    · exact natRepr_digits m c h

theorem pad2_ne_nil (m : Nat) : pad2 m ≠ [] := by
  unfold pad2 rjust
  by_cases hl : 2 ≤ (natRepr m).length
  · rw [if_pos hl]
    exact natRepr_ne_nil m
  · rw [if_neg hl]
    simp [natRepr_ne_nil m]

theorem natRepr_lt_ten {m : Nat} (h : m < 10) : natRepr m = [digitChar m] := by
  rw [natRepr_eq, if_pos h]

theorem natRepr_two_digits {m : Nat} (h1 : 10 ≤ m) (h2 : m < 100) :
    natRepr m = [digitChar (m / 10), digitChar (m % 10)] := by
  rw [natRepr_eq, if_neg (by omega), natRepr_lt_ten (show m / 10 < 10 by omega)]
  rfl

theorem pad2_eq {m : Nat} (h : m < 100) :
    pad2 m = if m < 10 then ['0', digitChar m]
      else [digitChar (m / 10), digitChar (m % 10)] := by
  by_cases hm : m < 10
  · rw [if_pos hm]
    unfold pad2 rjust
    rw [natRepr_lt_ten hm]
    simp
  · rw [if_neg hm]
    unfold pad2 rjust
    rw [natRepr_two_digits (by omega) h]
    simp

theorem digitsVal_pad2 {m : Nat} (h : m < 100) :
    digitsVal (pad2 m) = m := by
  rw [pad2_eq h]
  by_cases hm : m < 10
  · rw [if_pos hm]
    simp [digitsVal, digitChar_toNat hm]
  · rw [if_neg hm]
    simp [digitsVal, digitChar_toNat (show m / 10 < 10 by omega),
      digitChar_toNat (show m % 10 < 10 by omega)]
    omega

theorem split_on_no_sep (sep : Char) :
    ∀ a : List Char, (∀ c ∈ a, c ≠ sep) → split_on sep a = [a] := by
  intro a
  induction a with
  | nil => intro; rfl
  | cons c t ih =>
      intro h
      have hc : c ≠ sep := h c (by simp)
      rw [split_on]
      rw [ih (fun x hx => h x (by simp [hx]))]
      simp [hc]

theorem split_on_append (sep : Char) :
    ∀ a b : List Char, (∀ c ∈ a, c ≠ sep) →
      split_on sep (a ++ sep :: b) = a :: split_on sep b := by
  intro a
  induction a with
  | nil =>
      intro b _
      simp [split_on]
  | cons c t ih =>
      intro b h
      have hc : c ≠ sep := h c (by simp)
      rw [List.cons_append, split_on]
      rw [ih b (fun x hx => h x (by simp [hx]))]
      simp [hc]


theorem no_colon_in_digits {s : List Char}
    (hd : ∀ c ∈ s, ∃ d, d < 10 ∧ c = digitChar d) : ∀ c ∈ s, c ≠ ':' := by
  intro c hc
  obtain ⟨d, h10, hcd⟩ := hd c hc
  rw [hcd]
  exact digitChar_ne_colon h10

theorem no_dot_in_digits {s : List Char}
    (hd : ∀ c ∈ s, ∃ d, d < 10 ∧ c = digitChar d) : ∀ c ∈ s, c ≠ '.' := by
  intro c hc
  obtain ⟨d, h10, hcd⟩ := hd c hc
  rw [hcd]
  exact digitChar_ne_dot h10

/-- C6, amended: `unparse_time (parse_time x) = x` for every `x` of
the form `H:MM:SS.CC` where `H` is the canonical decimal rendering of
a non-negative integer (`natRepr H`, no leading zeros) and `MM`, `SS`
are two-digit values ≤ 59 and `CC` a two-digit value ≤ 99 (`pad2`,
matching `str(n).rjust(2, '0')`).  The original claim allowed any
two-digit `MM`/`SS` and leading zeros in `H`; `unparse_time`
canonicalizes those, so the round trip is not the identity on them. -/
theorem C6_time_roundtrip (H MM SS CC : Nat)
    (hM : MM ≤ 59) (hS : SS ≤ 59) (hC : CC ≤ 99) :
    (parse_time (natRepr H ++ ':' ::
        (pad2 MM ++ ':' :: (pad2 SS ++ '.' :: pad2 CC)))).bind unparse_time =
      some (natRepr H ++ ':' ::
        (pad2 MM ++ ':' :: (pad2 SS ++ '.' :: pad2 CC))) := by
  have hdH := natRepr_digits H
  have hdM := pad2_digits (show MM < 100 by omega)
  have hdS := pad2_digits (show SS < 100 by omega)
  have hdC := pad2_digits (show CC < 100 by omega)
  have hs1 : split_on ':' (natRepr H ++ ':' ::
      (pad2 MM ++ ':' :: (pad2 SS ++ '.' :: pad2 CC))) =
      natRepr H :: split_on ':' (pad2 MM ++ ':' :: (pad2 SS ++ '.' :: pad2 CC)) :=
    split_on_append ':' _ _ (no_colon_in_digits hdH)
  have hs2 : split_on ':' (pad2 MM ++ ':' :: (pad2 SS ++ '.' :: pad2 CC)) =
      pad2 MM :: split_on ':' (pad2 SS ++ '.' :: pad2 CC) :=
    split_on_append ':' _ _ (no_colon_in_digits hdM)
  have hs3 : split_on ':' (pad2 SS ++ '.' :: pad2 CC) =
      [pad2 SS ++ '.' :: pad2 CC] := by
    refine split_on_no_sep ':' _ ?_
    intro c hc
    rcases List.mem_append.mp hc with h | h
    · exact no_colon_in_digits hdS c h
    · rcases List.mem_cons.mp h with h | h
      · rw [h]
        decide
      · exact no_colon_in_digits hdC c h
  have hs4 : split_on '.' (pad2 SS ++ '.' :: pad2 CC) = pad2 SS :: split_on '.' (pad2 CC) :=
    split_on_append '.' _ _ (no_dot_in_digits hdS)
  have hs5 : split_on '.' (pad2 CC) = [pad2 CC] :=
    split_on_no_sep '.' _ (no_dot_in_digits hdC)
  have hiH := pyInt_digits (natRepr H) (natRepr_ne_nil H) hdH
  have hiM := pyInt_digits (pad2 MM) (pad2_ne_nil MM) hdM
  have hiS := pyInt_digits (pad2 SS) (pad2_ne_nil SS) hdS
  have hiC := pyInt_digits (pad2 CC) (pad2_ne_nil CC) hdC
  have hvH := digitsVal_natRepr H
  have hvM := digitsVal_pad2 (show MM < 100 by omega)
  have hvS := digitsVal_pad2 (show SS < 100 by omega)
  have hvC := digitsVal_pad2 (show CC < 100 by omega)
  have hpt : parse_time (natRepr H ++ ':' ::
      (pad2 MM ++ ':' :: (pad2 SS ++ '.' :: pad2 CC))) =
      some ((CC : Int) + (SS : Int) * 100 + (MM : Int) * (100 * 60)
            + (H : Int) * (100 * 60 * 60)) := by
    unfold parse_time
    rw [hs1, hs2, hs3]
    simp only [hiH, hiM, hs4, hs5, hiS, hiC, hvH, hvM, hvS, hvC]
    rw [if_neg (by omega)]
  rw [hpt]
  simp only [Option.some_bind]
  unfold unparse_time
  rw [if_neg (by omega)]
  have hn : ((CC : Int) + (SS : Int) * 100 + (MM : Int) * (100 * 60)
      + (H : Int) * (100 * 60 * 60)).toNat =
      CC + SS * 100 + MM * 6000 + H * 360000 := by
    omega
  rw [hn]
  have e1 : (CC + SS * 100 + MM * 6000 + H * 360000) / (100 * 60 * 60) = H := by
    omega
  have e2 : (CC + SS * 100 + MM * 6000 + H * 360000) / (100 * 60) % 60 = MM := by
    omega
  have e3 : (CC + SS * 100 + MM * 6000 + H * 360000) / 100 % 60 = SS := by
    omega
  have e4 : (CC + SS * 100 + MM * 6000 + H * 360000) % 100 = CC := by
    omega
  simp only [e1, e2, e3, e4]
  unfold pad2
  simp [List.append_assoc]


/-- Witness for C6 at `1:02:03.04`. -/
theorem C6_time_roundtrip_witness :
    (parse_time (natRepr 1 ++ ':' ::
        (pad2 2 ++ ':' :: (pad2 3 ++ '.' :: pad2 4)))).bind unparse_time =
      some (natRepr 1 ++ ':' ::
        (pad2 2 ++ ':' :: (pad2 3 ++ '.' :: pad2 4))) :=
  C6_time_roundtrip 1 2 3 4 (by omega) (by omega) (by omega)

/-- Counterexample to C6 as stated: `0:75:00.00` has the claimed shape
(H one digit, MM = 75 exactly two digits, all non-negative), yet
`unparse_time (parse_time x)` canonicalizes it to `1:15:00.00`. -/
theorem C6_counterexample :
    (parse_time ("0:75:00.00".toList)).bind unparse_time =
      some ("1:15:00.00".toList) ∧
    ("1:15:00.00".toList : List Char) ≠ ("0:75:00.00".toList) := by
  decide

end Subs2cia

/-! ## The filter-graph writers (C8) -/

namespace Subs2cia

theorem digitChar_ne_semi {d : Nat} (h : d < 10) : digitChar d ≠ ';' := by
  interval_cases d <;> decide

theorem count_semi_natRepr (n : Nat) : List.count ';' (natRepr n) = 0 := by
  rw [List.count_eq_zero]
  intro hmem
  obtain ⟨d, h10, hcd⟩ := natRepr_digits n ';' hmem
  exact digitChar_ne_semi h10 hcd.symm

theorem count_semi_intRepr (i : Int) : List.count ';' (intRepr i) = 0 := by
  unfold intRepr
  by_cases h : i < 0
  · rw [if_pos h]
    simp [count_semi_natRepr]
  · rw [if_neg h]
    exact count_semi_natRepr _

theorem audio_step_from_one (fi si : Int) (sout : List Char)
    (stot stc : Nat) (x : List Char) (r : Range)
    (hxs : List.count ';' x = 0) :
    (audio_trim_step fi si ("a".toList) ("ca".toList)
        ⟨sout, stot, stc, [x]⟩ r).streams = ["ca".toList ++ natRepr stc] ∧
    (audio_trim_step fi si ("a".toList) ("ca".toList)
        ⟨sout, stot, stc, [x]⟩ r).total = stot + 1 ∧
    (audio_trim_step fi si ("a".toList) ("ca".toList)
        ⟨sout, stot, stc, [x]⟩ r).totalConcat = stc + 1 ∧
    List.count ';' (audio_trim_step fi si ("a".toList) ("ca".toList)
        ⟨sout, stot, stc, [x]⟩ r).out = List.count ';' sout + 2 := by
  simp only [audio_trim_step]
  rw [if_pos (by simp)]
  refine ⟨by simp, rfl, rfl, ?_⟩
  simp only [List.tail_cons, List.headD_cons, List.count_append]
  have c0 : List.count ';' ("a".toList) = 0 := by decide
  have c1 : List.count ';' ("ca".toList) = 0 := by decide
  have c2 : List.count ';' ("atrim=".toList) = 0 := by decide
  have c3 : List.count ';' ("start_pts=".toList) = 0 := by decide
  have c4 : List.count ';' ("end_pts=".toList) = 0 := by decide
  have c5 : List.count ';' (",asetpts=PTS-STARTPTS".toList) = 0 := by decide
  have c6 : List.count ';' ("concat=v=0:a=1".toList) = 0 := by decide
  have b1 : List.count ';' (['['] : List Char) = 0 := by decide
  have b2 : List.count ';' ([']'] : List Char) = 0 := by decide
  have b3 : List.count ';' ([':'] : List Char) = 0 := by decide
  have b4 : List.count ';' (([';'] : List Char)) = 1 := by decide
  have n1 := count_semi_intRepr fi
  have n2 := count_semi_intRepr si
  have n3 := count_semi_intRepr r.1
  have n4 := count_semi_intRepr r.2
  have n5 := count_semi_natRepr stot
  have n6 := count_semi_natRepr stc
  omega


theorem count_semi_audio_label (stc : Nat) :
    List.count ';' ("ca".toList ++ natRepr stc) = 0 := by
  have c1 : List.count ';' ("ca".toList) = 0 := by decide
  simp [List.count_append, c1, count_semi_natRepr]

theorem audio_step_from_empty (fi si : Int) (sout : List Char)
    (stot stc : Nat) (r : Range) :
    (audio_trim_step fi si ("a".toList) ("ca".toList)
        ⟨sout, stot, stc, []⟩ r).streams = ["a".toList ++ natRepr stot] ∧
    (audio_trim_step fi si ("a".toList) ("ca".toList)
        ⟨sout, stot, stc, []⟩ r).total = stot + 1 ∧
    (audio_trim_step fi si ("a".toList) ("ca".toList)
        ⟨sout, stot, stc, []⟩ r).totalConcat = stc ∧
    List.count ';' (audio_trim_step fi si ("a".toList) ("ca".toList)
        ⟨sout, stot, stc, []⟩ r).out = List.count ';' sout + 1 := by
  simp only [audio_trim_step]
  rw [if_neg (by simp)]
  refine ⟨rfl, rfl, rfl, ?_⟩
  simp only [List.count_append]
  have c0 : List.count ';' ("a".toList) = 0 := by decide
  have c2 : List.count ';' ("atrim=".toList) = 0 := by decide
  have c3 : List.count ';' ("start_pts=".toList) = 0 := by decide
  have c4 : List.count ';' ("end_pts=".toList) = 0 := by decide
  have c5 : List.count ';' (",asetpts=PTS-STARTPTS".toList) = 0 := by decide
  have b1 : List.count ';' (['['] : List Char) = 0 := by decide
  have b2 : List.count ';' ([']'] : List Char) = 0 := by decide
  have b3 : List.count ';' ([':'] : List Char) = 0 := by decide
  have b4 : List.count ';' (([';'] : List Char)) = 1 := by decide
  have n1 := count_semi_intRepr fi
  have n2 := count_semi_intRepr si
  have n3 := count_semi_intRepr r.1
  have n4 := count_semi_intRepr r.2
  have n5 := count_semi_natRepr stot
  omega

theorem audio_fold_from_one (fi si : Int) :
    ∀ (rs : List Range) (sout x : List Char) (stot stc : Nat),
      List.count ';' x = 0 →
      ∃ y,
        (rs.foldl (audio_trim_step fi si ("a".toList) ("ca".toList))
            ⟨sout, stot, stc, [x]⟩).streams = [y] ∧
        List.count ';' y = 0 ∧
        (rs.foldl (audio_trim_step fi si ("a".toList) ("ca".toList))
            ⟨sout, stot, stc, [x]⟩).total = stot + rs.length ∧
        (rs.foldl (audio_trim_step fi si ("a".toList) ("ca".toList))
            ⟨sout, stot, stc, [x]⟩).totalConcat = stc + rs.length ∧
        List.count ';' (rs.foldl (audio_trim_step fi si ("a".toList) ("ca".toList))
            ⟨sout, stot, stc, [x]⟩).out = List.count ';' sout + 2 * rs.length := by
  intro rs
  induction rs with
  | nil =>
      intro sout x stot stc hx
      exact ⟨x, rfl, hx, by simp, by simp, by simp⟩
  | cons r rest ih =>
      intro sout x stot stc hx
      obtain ⟨hst, hto, htc, hco⟩ := audio_step_from_one fi si sout stot stc x r hx
      have hstep : audio_trim_step fi si ("a".toList) ("ca".toList)
          ⟨sout, stot, stc, [x]⟩ r =
          ⟨(audio_trim_step fi si ("a".toList) ("ca".toList)
              ⟨sout, stot, stc, [x]⟩ r).out, stot + 1, stc + 1,
            ["ca".toList ++ natRepr stc]⟩ := by
        rw [← hst, ← hto, ← htc]
      rw [List.foldl_cons, hstep]
      obtain ⟨y, h1, h2, h3, h4, h5⟩ := ih
        ((audio_trim_step fi si ("a".toList) ("ca".toList)
            ⟨sout, stot, stc, [x]⟩ r).out)
        ("ca".toList ++ natRepr stc) (stot + 1) (stc + 1)
        (count_semi_audio_label stc)
      refine ⟨y, h1, h2, by rw [h3]; simp; omega, by rw [h4]; simp; omega, ?_⟩
      rw [h5, hco]
      simp
      omega


theorem count_semi_video_label (stc : Nat) :
    List.count ';' ("cv".toList ++ natRepr stc) = 0 := by
  have c1 : List.count ';' ("cv".toList) = 0 := by decide
  simp [List.count_append, c1, count_semi_natRepr]

theorem video_step_from_one (fi si : Int) (sout : List Char)
    (stot stc : Nat) (x : List Char) (r : Range)
    (hxs : List.count ';' x = 0) :
    (video_trim_step fi si ("v".toList) ("cv".toList)
        ⟨sout, stot, stc, [x]⟩ r).streams = ["cv".toList ++ natRepr stc] ∧
    (video_trim_step fi si ("v".toList) ("cv".toList)
        ⟨sout, stot, stc, [x]⟩ r).total = stot + 1 ∧
    (video_trim_step fi si ("v".toList) ("cv".toList)
        ⟨sout, stot, stc, [x]⟩ r).totalConcat = stc + 1 ∧
    List.count ';' (video_trim_step fi si ("v".toList) ("cv".toList)
        ⟨sout, stot, stc, [x]⟩ r).out = List.count ';' sout + 2 := by
  simp only [video_trim_step]
  rw [if_pos (by simp)]
  refine ⟨by simp, rfl, rfl, ?_⟩
  simp only [List.tail_cons, List.headD_cons, List.count_append]
  have c0 : List.count ';' ("v".toList) = 0 := by decide
  have c1 : List.count ';' ("cv".toList) = 0 := by decide
  have c2 : List.count ';' ("trim=".toList) = 0 := by decide
  have c3 : List.count ';' ("start_pts=".toList) = 0 := by decide
  have c4 : List.count ';' ("end_pts=".toList) = 0 := by decide
  have c5 : List.count ';' (",setpts=PTS-STARTPTS".toList) = 0 := by decide
  have c6 : List.count ';' ("concat".toList) = 0 := by decide
  have b1 : List.count ';' (['['] : List Char) = 0 := by decide
  have b2 : List.count ';' ([']'] : List Char) = 0 := by decide
  have b3 : List.count ';' ([':'] : List Char) = 0 := by decide
  have b4 : List.count ';' (([';'] : List Char)) = 1 := by decide
  have n1 := count_semi_intRepr fi
  have n2 := count_semi_intRepr si
  have n3 := count_semi_intRepr r.1
  have n4 := count_semi_intRepr r.2
  have n5 := count_semi_natRepr stot
  have n6 := count_semi_natRepr stc
  omega

theorem video_step_from_empty (fi si : Int) (sout : List Char)
    (stot stc : Nat) (r : Range) :
    (video_trim_step fi si ("v".toList) ("cv".toList)
        ⟨sout, stot, stc, []⟩ r).streams = ["v".toList ++ natRepr stot] ∧
    (video_trim_step fi si ("v".toList) ("cv".toList)
        ⟨sout, stot, stc, []⟩ r).total = stot + 1 ∧
    (video_trim_step fi si ("v".toList) ("cv".toList)
        ⟨sout, stot, stc, []⟩ r).totalConcat = stc ∧
    List.count ';' (video_trim_step fi si ("v".toList) ("cv".toList)
        ⟨sout, stot, stc, []⟩ r).out = List.count ';' sout + 1 := by
  simp only [video_trim_step]
  rw [if_neg (by simp)]
  refine ⟨rfl, rfl, rfl, ?_⟩
  simp only [List.count_append]
  have c0 : List.count ';' ("v".toList) = 0 := by decide
  have c2 : List.count ';' ("trim=".toList) = 0 := by decide
  have c3 : List.count ';' ("start_pts=".toList) = 0 := by decide
  have c4 : List.count ';' ("end_pts=".toList) = 0 := by decide
  have c5 : List.count ';' (",setpts=PTS-STARTPTS".toList) = 0 := by decide
  have b1 : List.count ';' (['['] : List Char) = 0 := by decide
  have b2 : List.count ';' ([']'] : List Char) = 0 := by decide
  have b3 : List.count ';' ([':'] : List Char) = 0 := by decide
  have b4 : List.count ';' (([';'] : List Char)) = 1 := by decide
  have n1 := count_semi_intRepr fi
  have n2 := count_semi_intRepr si
  have n3 := count_semi_intRepr r.1
  have n4 := count_semi_intRepr r.2
  have n5 := count_semi_natRepr stot
  omega

theorem video_fold_from_one (fi si : Int) :
    ∀ (rs : List Range) (sout x : List Char) (stot stc : Nat),
      List.count ';' x = 0 →
      ∃ y,
        (rs.foldl (video_trim_step fi si ("v".toList) ("cv".toList))
            ⟨sout, stot, stc, [x]⟩).streams = [y] ∧
        List.count ';' y = 0 ∧
        (rs.foldl (video_trim_step fi si ("v".toList) ("cv".toList))
            ⟨sout, stot, stc, [x]⟩).total = stot + rs.length ∧
        (rs.foldl (video_trim_step fi si ("v".toList) ("cv".toList))
            ⟨sout, stot, stc, [x]⟩).totalConcat = stc + rs.length ∧
        List.count ';' (rs.foldl (video_trim_step fi si ("v".toList) ("cv".toList))
            ⟨sout, stot, stc, [x]⟩).out = List.count ';' sout + 2 * rs.length := by
  intro rs
  induction rs with
  | nil =>
      intro sout x stot stc hx
      exact ⟨x, rfl, hx, by simp, by simp, by simp⟩
  | cons r rest ih =>
      intro sout x stot stc hx
      obtain ⟨hst, hto, htc, hco⟩ := video_step_from_one fi si sout stot stc x r hx
      have hstep : video_trim_step fi si ("v".toList) ("cv".toList)
          ⟨sout, stot, stc, [x]⟩ r =
          ⟨(video_trim_step fi si ("v".toList) ("cv".toList)
              ⟨sout, stot, stc, [x]⟩ r).out, stot + 1, stc + 1,
            ["cv".toList ++ natRepr stc]⟩ := by
        rw [← hst, ← hto, ← htc]
      rw [List.foldl_cons, hstep]
      obtain ⟨y, h1, h2, h3, h4, h5⟩ := ih
        ((video_trim_step fi si ("v".toList) ("cv".toList)
            ⟨sout, stot, stc, [x]⟩ r).out)
        ("cv".toList ++ natRepr stc) (stot + 1) (stc + 1)
        (count_semi_video_label stc)
      refine ⟨y, h1, h2, by rw [h3]; simp; omega, by rw [h4]; simp; omega, ?_⟩
      rw [h5, hco]
      simp
      omega


theorem count_semi_a0 : List.count ';' ("a".toList ++ natRepr 0) = 0 := by
  decide

theorem count_semi_v0 : List.count ';' ("v".toList ++ natRepr 0) = 0 := by
  decide

/-- C8: the two filter writers raise `Invalid` (`ValueError`, modelled
as `none`) exactly on an empty range set.  For a non-empty set of `n`
ranges (with the default label stems `a`/`ca` and `v`/`cv`), the
emitted text consists of exactly `2n - 1` semicolon-terminated
statements — the `total` counter, incremented once per written
trim/atrim statement, ends at `n`, the `totalConcat` counter at
`n - 1`, and the total semicolon count is `2n - 1`; the pending-label
stack holds exactly one label after every loop iteration, and the
returned string is the single final remaining label. -/
theorem C8_filter_writers (ranges : List Range) (fi si : Int) :
    (write_complex_filter_for_audio_trim ranges fi si ("a".toList) ("ca".toList)
        = none ↔ ranges = []) ∧
    (write_complex_filter_for_video_trim ranges fi si ("v".toList) ("cv".toList)
        = none ↔ ranges = []) ∧
    (ranges ≠ [] →
      (∃ out lbl,
        write_complex_filter_for_audio_trim ranges fi si ("a".toList) ("ca".toList)
            = some (out, lbl) ∧
        (ranges.foldl (audio_trim_step fi si ("a".toList) ("ca".toList))
            ⟨[], 0, 0, []⟩).streams = [lbl] ∧
        (ranges.foldl (audio_trim_step fi si ("a".toList) ("ca".toList))
            ⟨[], 0, 0, []⟩).total = ranges.length ∧
        (ranges.foldl (audio_trim_step fi si ("a".toList) ("ca".toList))
            ⟨[], 0, 0, []⟩).totalConcat = ranges.length - 1 ∧
        List.count ';' out = 2 * ranges.length - 1) ∧
      (∃ out lbl,
        write_complex_filter_for_video_trim ranges fi si ("v".toList) ("cv".toList)
            = some (out, lbl) ∧
        (ranges.foldl (video_trim_step fi si ("v".toList) ("cv".toList))
            ⟨[], 0, 0, []⟩).streams = [lbl] ∧
        (ranges.foldl (video_trim_step fi si ("v".toList) ("cv".toList))
            ⟨[], 0, 0, []⟩).total = ranges.length ∧
        (ranges.foldl (video_trim_step fi si ("v".toList) ("cv".toList))
            ⟨[], 0, 0, []⟩).totalConcat = ranges.length - 1 ∧
        List.count ';' out = 2 * ranges.length - 1) ∧
      (∀ k, 1 ≤ k → k ≤ ranges.length →
        ((ranges.take k).foldl (audio_trim_step fi si ("a".toList) ("ca".toList))
            ⟨[], 0, 0, []⟩).streams.length = 1 ∧
        ((ranges.take k).foldl (video_trim_step fi si ("v".toList) ("cv".toList))
            ⟨[], 0, 0, []⟩).streams.length = 1)) := by
  refine ⟨?_, ?_, ?_⟩
  · unfold write_complex_filter_for_audio_trim
    by_cases h : ranges.length = 0
    · rw [if_pos h]
      exact iff_of_true rfl (List.length_eq_zero.mp h)
    · rw [if_neg h]
      exact iff_of_false (by simp) (fun hc => h (by rw [hc]; rfl))
  · unfold write_complex_filter_for_video_trim
    by_cases h : ranges.length = 0
    · rw [if_pos h]
      exact iff_of_true rfl (List.length_eq_zero.mp h)
    · rw [if_neg h]
      exact iff_of_false (by simp) (fun hc => h (by rw [hc]; rfl))
  · intro hne
    cases ranges with
    | nil => exact absurd rfl hne
    | cons r0 rest =>
        obtain ⟨ha1, ha2, ha3, ha4⟩ := audio_step_from_empty fi si [] 0 0 r0
        obtain ⟨hv1, hv2, hv3, hv4⟩ := video_step_from_empty fi si [] 0 0 r0
        rcases hastep : audio_trim_step fi si ("a".toList) ("ca".toList)
            ⟨[], 0, 0, []⟩ r0 with ⟨ao, at1, ac1, as1⟩
        rw [hastep] at ha1 ha2 ha3 ha4
        simp only [] at ha1 ha2 ha3 ha4
        subst ha1
        subst ha2
        subst ha3
        rcases hvstep : video_trim_step fi si ("v".toList) ("cv".toList)
            ⟨[], 0, 0, []⟩ r0 with ⟨vo, vt1, vc1, vs1⟩
        rw [hvstep] at hv1 hv2 hv3 hv4
        simp only [] at hv1 hv2 hv3 hv4
        subst hv1
        subst hv2
        subst hv3
        refine ⟨?_, ?_, ?_⟩
        · obtain ⟨y, h1, h2, h3, h4, h5⟩ := audio_fold_from_one fi si rest
            ao ("a".toList ++ natRepr 0) (0 + 1) 0 count_semi_a0
          refine ⟨(rest.foldl (audio_trim_step fi si ("a".toList) ("ca".toList))
              ⟨ao, 0 + 1, 0, ["a".toList ++ natRepr 0]⟩).out, y, ?_, ?_, ?_, ?_, ?_⟩
          · unfold write_complex_filter_for_audio_trim
            rw [if_neg (by simp)]
            rw [List.foldl_cons, hastep]
            simp only [h1]
            rfl
          · rw [List.foldl_cons, hastep]
            exact h1
          · rw [List.foldl_cons, hastep, h3]
            simp
            omega
          · rw [List.foldl_cons, hastep, h4]
            simp
          · rw [h5, ha4]
            simp
            omega
        · obtain ⟨y, h1, h2, h3, h4, h5⟩ := video_fold_from_one fi si rest
            vo ("v".toList ++ natRepr 0) (0 + 1) 0 count_semi_v0
          refine ⟨(rest.foldl (video_trim_step fi si ("v".toList) ("cv".toList))
              ⟨vo, 0 + 1, 0, ["v".toList ++ natRepr 0]⟩).out, y, ?_, ?_, ?_, ?_, ?_⟩
          · unfold write_complex_filter_for_video_trim
            rw [if_neg (by simp)]
            rw [List.foldl_cons, hvstep]
            simp only [h1]
            rfl
          · rw [List.foldl_cons, hvstep]
            exact h1
          · rw [List.foldl_cons, hvstep, h3]
            simp
            omega
          · rw [List.foldl_cons, hvstep, h4]
            simp
          · rw [h5, hv4]
            simp
            omega
        · intro k hk1 hk2
          obtain ⟨k1, rfl⟩ : ∃ k1, k = k1 + 1 := ⟨k - 1, by omega⟩
          rw [List.take_succ_cons]
          constructor
          · rw [List.foldl_cons, hastep]
            obtain ⟨y, h1, _, _, _, _⟩ := audio_fold_from_one fi si (rest.take k1)
              ao ("a".toList ++ natRepr 0) (0 + 1) 0 count_semi_a0
            rw [h1]
            rfl
          · rw [List.foldl_cons, hvstep]
            obtain ⟨y, h1, _, _, _, _⟩ := video_fold_from_one fi si (rest.take k1)
              vo ("v".toList ++ natRepr 0) (0 + 1) 0 count_semi_v0
            rw [h1]
            rfl


/-- Witness for C8: the writers succeed on two ranges and fail on the
empty set. -/
theorem C8_filter_writers_witness :
    write_complex_filter_for_audio_trim
        [((0 : Int), (5 : Int)), ((7 : Int), (9 : Int))] 0 1
        ("a".toList) ("ca".toList) ≠ none ∧
    write_complex_filter_for_video_trim
        [((0 : Int), (5 : Int)), ((7 : Int), (9 : Int))] 0 1
        ("v".toList) ("cv".toList) ≠ none ∧
    write_complex_filter_for_audio_trim [] 0 1 ("a".toList) ("ca".toList)
        = none ∧
    write_complex_filter_for_video_trim [] 0 1 ("v".toList) ("cv".toList)
        = none := by
  refine ⟨?_, ?_, ?_, ?_⟩
  · rw [Ne, (C8_filter_writers
      [((0 : Int), (5 : Int)), ((7 : Int), (9 : Int))] 0 1).1]
    decide
  · rw [Ne, (C8_filter_writers
      [((0 : Int), (5 : Int)), ((7 : Int), (9 : Int))] 0 1).2.1]
    decide
  · exact (C8_filter_writers [] 0 1).1.mpr rfl
  · exact (C8_filter_writers [] 0 1).2.1.mpr rfl

end Subs2cia

namespace Subs2cia

open TimeRanges in
theorem ratFloor_eq {a b : Int} (hb : 0 < b) : ratFloor a b = a / b :=
  Int.fdiv_eq_ediv a (le_of_lt hb)

open TimeRanges in
theorem ratCeil_eq {a b : Int} (hb : 0 < b) : ratCeil a b = -((-a) / b) := by
  unfold ratCeil
  rw [Int.fdiv_eq_ediv _ (le_of_lt hb)]

open TimeRanges in
theorem ratFloor_nonneg {a b : Int} (ha : 0 ≤ a) (hb : 0 < b) :
    0 ≤ ratFloor a b := by
  rw [ratFloor_eq hb]
  exact Int.ediv_nonneg ha (le_of_lt hb)

open TimeRanges in
theorem ratFloor_mono {a c b : Int} (hb : 0 < b) (h : a ≤ c) :
    ratFloor a b ≤ ratFloor c b := by
  rw [ratFloor_eq hb, ratFloor_eq hb]
  exact Int.ediv_le_ediv hb h

open TimeRanges in
theorem ratFloor_le_ratCeil {a c b : Int} (hb : 0 < b) (h : a ≤ c) :
    ratFloor a b ≤ ratCeil c b := by
  rw [ratFloor_eq hb, ratCeil_eq hb]
  have h1 : a / b ≤ c / b := Int.ediv_le_ediv hb h
  have h2 : c / b * b ≤ c := Int.ediv_mul_le c (by omega)
  have h3 : (-c) / b * b ≤ -c := Int.ediv_mul_le (-c) (by omega)
  have h4 : c / b + (-c) / b ≤ 0 := by
    have hm : b * (c / b + (-c) / b) ≤ b * 0 := by nlinarith
    exact Int.le_of_mul_le_mul_left hm hb
  omega

open TimeRanges in
theorem ratCeil_nonneg {a b : Int} (ha : 0 ≤ a) (hb : 0 < b) :
    0 ≤ ratCeil a b := by
  have := ratFloor_le_ratCeil hb ha
  have h0 : ratFloor 0 b = 0 := by
    rw [ratFloor_eq hb]
    exact Int.zero_ediv b
  omega

end Subs2cia

namespace Subs2cia

/-- Non-strict sortedness by start, the precondition of `consolidate`. -/
def SortedNS (l : List Range) : Prop :=
  List.Chain' (fun a b : Range => a.1 ≤ b.1) l

theorem inv_sortedNS {l : List Range} (hInv : Inv l) : SortedNS l := by
  unfold SortedNS
  rw [List.chain'_iff_get]
  intro i hi
  have := starts_lt hInv i (i + 1) (by omega) (by omega)
  rw [nthR_eq l (by omega), nthR_eq l (by omega)] at this
  simp only [List.get_eq_getElem]
  omega

theorem inv_strict_chain {l : List Range} (hInv : Inv l) :
    List.Chain' (fun a b : Range => a.1 < b.1) l := by
  rw [List.chain'_iff_get]
  intro i hi
  have := starts_lt hInv i (i + 1) (by omega) (by omega)
  rw [nthR_eq l (by omega), nthR_eq l (by omega)] at this
  simp only [List.get_eq_getElem]
  exact this

theorem inv_claimInv {l : List Range} (hInv : Inv l) : ClaimInv l :=
  ⟨inv_strict_chain hInv, hInv.1, fun r hr => (hInv.2 r hr).1⟩

open TimeRanges in
theorem rescale_map_facts {l : List Range} (hs : SortedNS l)
    (hv : ∀ r ∈ l, validR r) {n old : Int} (hn : 0 < n) (hold : 0 < old) :
    SortedNS (l.map fun x => (ratFloor (x.1 * n) old, ratCeil (x.2 * n) old)) ∧
    (∀ r ∈ l.map fun x => (ratFloor (x.1 * n) old, ratCeil (x.2 * n) old),
      validR r) := by
  constructor
  · unfold SortedNS at hs ⊢
    rw [List.chain'_map]
    refine List.Chain'.imp ?_ hs
    intro a b hab
    exact ratFloor_mono hold (by nlinarith)
  · intro r hr
    rw [List.mem_map] at hr
    obtain ⟨x, hx, hxr⟩ := hr
    obtain ⟨hx0, hx12⟩ := hv x hx
    rw [← hxr]
    constructor
    · exact ratFloor_nonneg (by nlinarith) hold
    · exact ratFloor_le_ratCeil hold (by nlinarith)

theorem padmap_facts {l : List Range} (hs : SortedNS l)
    (hv : ∀ r ∈ l, validR r) {ps pe : Int} (hps : 0 ≤ ps) (hpe : 0 ≤ pe) :
    SortedNS (l.map fun r => (max 0 (r.1 - ps), r.2 + pe)) ∧
    (∀ r ∈ l.map fun r => (max 0 (r.1 - ps), r.2 + pe), validR r) := by
  constructor
  · unfold SortedNS at hs ⊢
    rw [List.chain'_map]
    refine List.Chain'.imp ?_ hs
    intro a b hab
    simp only []
    omega
  · intro r hr
    rw [List.mem_map] at hr
    obtain ⟨x, hx, hxr⟩ := hr
    obtain ⟨hx0, hx12⟩ := hv x hx
    rw [← hxr]
    constructor
    · show (0 : Int) ≤ max 0 (x.1 - ps)
      omega
    · show max 0 (x.1 - ps) ≤ x.2 + pe
      omega

open TimeRanges in
theorem set_units_facts {tr t : TimeRanges} (hInv : Inv tr._ranges)
    (hups : 0 < tr._units_per_second) {u : Int} (hu : 0 < u)
    (h : tr.set_units_per_second u = some t) :
    SortedNS t._ranges ∧ (∀ r ∈ t._ranges, validR r) ∧
    t._units_per_second = u := by
  unfold set_units_per_second at h
  by_cases he : tr._units_per_second = u
  · rw [if_pos he] at h
    cases h
    exact ⟨inv_sortedNS hInv, hInv.2, he⟩
  · rw [if_neg he, if_neg (by omega)] at h
    cases h
    obtain ⟨h1, h2⟩ := rescale_map_facts (inv_sortedNS hInv) hInv.2 hu hups
    exact ⟨h1, h2, rfl⟩

open TimeRanges in
theorem add_padding_inv {tr t : TimeRanges} (hInv : Inv tr._ranges)
    (hups : 0 < tr._units_per_second) {ps pe pu : Int}
    (hps : 0 ≤ ps) (hpe : 0 ≤ pe) (hpu : 0 < pu)
    (h : tr.add_padding ps pe pu = some t) :
    Inv t._ranges ∧ 0 < t._units_per_second := by
  unfold add_padding at h
  by_cases h0 : ps = 0 ∧ pe = 0
  · rw [if_pos h0] at h
    cases h
    exact ⟨hInv, hups⟩
  · rw [if_neg h0] at h
    by_cases h1 : pu > tr._units_per_second
    · rw [if_pos h1] at h
      cases hset : tr.set_units_per_second pu with
      | none => rw [hset] at h; simp at h
      | some t1 =>
          rw [hset] at h
          simp only [Option.map_some'] at h
          obtain ⟨hs1, hv1, hu1⟩ := set_units_facts hInv hups hpu hset
          cases h
          obtain ⟨hs2, hv2⟩ := padmap_facts hs1 hv1 hps hpe
          exact ⟨consolidate_inv _ hs2 hv2, by simp [hu1]; omega⟩
    · rw [if_neg h1] at h
      by_cases h2 : pu < tr._units_per_second
      · rw [if_pos h2, if_neg (by omega)] at h
        simp only [Option.map_some'] at h
        cases h
        obtain ⟨hs2, hv2⟩ := @padmap_facts tr._ranges (inv_sortedNS hInv) hInv.2
          (TimeRanges.ratFloor (tr._units_per_second * ps) pu)
          (TimeRanges.ratCeil (tr._units_per_second * pe) pu)
          (ratFloor_nonneg (by nlinarith) hpu)
          (ratCeil_nonneg (by nlinarith) hpu)
        exact ⟨consolidate_inv _ hs2 hv2, by simpa using hups⟩
      · rw [if_neg h2] at h
        simp only [Option.map_some'] at h
        cases h
        obtain ⟨hs2, hv2⟩ := padmap_facts (inv_sortedNS hInv) hInv.2 hps hpe
        exact ⟨consolidate_inv _ hs2 hv2, by simpa using hups⟩

end Subs2cia

namespace Subs2cia

theorem insertIdx_decomp :
    ∀ (n : Nat) (l : List Range) (x : Range), n ≤ l.length →
      l.insertIdx n x = l.take n ++ x :: l.drop n := by
  intro n
  induction n with
  | zero => intro l x _; simp [List.insertIdx_zero]
  | succ m ih =>
      intro l x h
      cases l with
      | nil => simp at h
      | cons a t =>
          rw [List.insertIdx_succ_cons, ih t x (by simpa using h)]
          simp

theorem revchain_below :
    ∀ {rest : List Range} {p : Range},
      List.Chain' (fun a b : Range => b.2 < a.1) (p :: rest) →
      (∀ r ∈ rest, validR r) → ∀ r ∈ rest, r.2 < p.1 := by
  intro rest
  induction rest with
  | nil => intro p _ _ r hr; simp at hr
  | cons q rest2 ih =>
      intro p hc hv r hr
      have hq : q.2 < p.1 := (List.chain'_cons.mp hc).1
      rcases List.mem_cons.mp hr with h | h
      · subst h; exact hq
      · have hq1 : q.1 ≤ q.2 := (hv q (by simp)).2
        have := ih (List.chain'_cons.mp hc).2 (fun r hr => hv r (by simp [hr])) r h
        omega

theorem adjac_below :
    ∀ {rest : List Range} {p : Range},
      List.Chain' (fun a b : Range => a.2 < b.1) (p :: rest) →
      (∀ r ∈ rest, validR r) → ∀ r ∈ rest, p.2 < r.1 := by
  intro rest
  induction rest with
  | nil => intro p _ _ r hr; simp at hr
  | cons q rest2 ih =>
      intro p hc hv r hr
      have hq : p.2 < q.1 := (List.chain'_cons.mp hc).1
      rcases List.mem_cons.mp hr with h | h
      · subst h; exact hq
      · have hq1 : q.1 ≤ q.2 := (hv q (by simp)).2
        have := ih (List.chain'_cons.mp hc).2 (fun r hr => hv r (by simp [hr])) r h
        omega

theorem sweepLeftRev_spec :
    ∀ (preRev : List Range) (cur : Range),
      List.Chain' (fun a b : Range => b.2 < a.1) preRev →
      (∀ r ∈ preRev, validR r) → validR cur →
      (∀ r ∈ preRev, r.1 < cur.1) →
      List.Chain' (fun a b : Range => b.2 < a.1) (sweepLeftRev preRev cur).1 ∧
      (∀ r ∈ (sweepLeftRev preRev cur).1, validR r) ∧
      validR (sweepLeftRev preRev cur).2 ∧
      (sweepLeftRev preRev cur).2.1 ≤ cur.1 ∧
      (∀ p ∈ (sweepLeftRev preRev cur).1.head?, p.2 < (sweepLeftRev preRev cur).2.1) := by
  intro preRev
  induction preRev with
  | nil =>
      intro cur _ _ hcur _
      refine ⟨by simp [sweepLeftRev], by simp [sweepLeftRev], ?_, ?_, ?_⟩
      · simpa [sweepLeftRev] using hcur
      · simp [sweepLeftRev]
      · simp [sweepLeftRev]
  | cons p rest ih =>
      intro cur hc hv hcur hlt
      have hvp : validR p := hv p (by simp)
      cases hov : ranges_overlap p cur with
      | true =>
          have hres : sweepLeftRev (p :: rest) cur =
              sweepLeftRev rest (merge_ranges p cur) := by
            simp [sweepLeftRev, hov]
          have hvm : validR (merge_ranges p cur) := merge_valid hvp hcur
          have hm1 : (merge_ranges p cur).1 ≤ cur.1 := by
            simp only [merge_ranges]
            rcases hcur with ⟨h1, _⟩
            omega
          have hlt' : ∀ r ∈ rest, r.1 < (merge_ranges p cur).1 := by
            intro r hr
            have h1 := revchain_below hc (fun r hr => hv r (by simp [hr])) r hr
            have h2 : validR r := hv r (by simp [hr])
            have h3 : r.1 < cur.1 := hlt r (by simp [hr])
            simp only [merge_ranges]
            rcases h2 with ⟨h4, h5⟩
            omega
          obtain ⟨c1, c2, c3, c4, c5⟩ :=
            ih (merge_ranges p cur) hc.tail (fun r hr => hv r (by simp [hr])) hvm hlt'
          rw [hres]
          exact ⟨c1, c2, c3, le_trans c4 hm1, c5⟩
      | false =>
          have hres : sweepLeftRev (p :: rest) cur = (p :: rest, cur) := by
            simp [sweepLeftRev, hov]
          have hp2 : p.2 < cur.1 :=
            not_overlap_of_sorted (le_of_lt (hlt p (by simp))) (by simp [hov])
          rw [hres]
          refine ⟨hc, hv, hcur, le_refl _, ?_⟩
          intro x hx
          simp at hx
          subst hx
          exact hp2

theorem sweepRight_spec :
    ∀ (suf : List Range) (cur : Range),
      List.Chain' (fun a b : Range => a.2 < b.1) suf →
      (∀ r ∈ suf, validR r) → validR cur →
      (∀ r ∈ suf, cur.1 ≤ r.1) →
      List.Chain' (fun a b : Range => a.2 < b.1) (sweepRight cur suf).2 ∧
      (∀ r ∈ (sweepRight cur suf).2, validR r) ∧
      validR (sweepRight cur suf).1 ∧
      (sweepRight cur suf).1.1 = cur.1 ∧
      (∀ q ∈ (sweepRight cur suf).2.head?, (sweepRight cur suf).1.2 < q.1) := by
  intro suf
  induction suf with
  | nil =>
      intro cur _ _ hcur _
      refine ⟨by simp [sweepRight], by simp [sweepRight], ?_, ?_, ?_⟩
      · simpa [sweepRight] using hcur
      · simp [sweepRight]
      · simp [sweepRight]
  | cons q rest ih =>
      intro cur hc hv hcur hle
      have hvq : validR q := hv q (by simp)
      have hq1 : cur.1 ≤ q.1 := hle q (by simp)
      cases hov : ranges_overlap cur q with
      | true =>
          have hres : sweepRight cur (q :: rest) =
              sweepRight (merge_ranges cur q) rest := by
            simp [sweepRight, hov]
          have hvm : validR (merge_ranges cur q) := merge_valid hcur hvq
          have hm1 : (merge_ranges cur q).1 = cur.1 := merge_fst hcur.1 hq1
          have hle' : ∀ r ∈ rest, (merge_ranges cur q).1 ≤ r.1 := by
            intro r hr
            have h1 := adjac_below hc (fun r hr => hv r (by simp [hr])) r hr
            rcases hvq with ⟨h2, h3⟩
            omega
          obtain ⟨c1, c2, c3, c4, c5⟩ :=
            ih (merge_ranges cur q) hc.tail (fun r hr => hv r (by simp [hr])) hvm hle'
          rw [hres]
          exact ⟨c1, c2, c3, by rw [c4, hm1], c5⟩
      | false =>
          have hres : sweepRight cur (q :: rest) = (cur, q :: rest) := by
            simp [sweepRight, hov]
          have hcq : cur.2 < q.1 := not_overlap_of_sorted hq1 (by simp [hov])
          rw [hres]
          refine ⟨hc, hv, hcur, rfl, ?_⟩
          intro x hx
          simp at hx
          subst hx
          exact hcq

end Subs2cia

namespace Subs2cia

theorem consolidate_around_inv {L : List Range} (hInv : Inv L) {s e : Int}
    (hs : 0 ≤ s) (hse : s ≤ e) {idx : Nat} (hidx : idx ≤ L.length)
    (hbefore : ∀ j, j < idx → (nthR L j).1 < s)
    (hafter : ∀ j, idx ≤ j → j < L.length → s ≤ (nthR L j).1)
    (cache : Option (List Int)) :
    Inv (consolidate_around (L.insertIdx idx (s, e)) idx cache).1 := by
  have hdecomp : L.insertIdx idx (s, e) = L.take idx ++ (s, e) :: L.drop idx :=
    insertIdx_decomp idx L (s, e) hidx
  have htklen : (L.take idx).length = idx := by
    rw [List.length_take]
    omega
  have hlen : (L.insertIdx idx (s, e)).length = L.length + 1 :=
    List.length_insertIdx idx L hidx
  unfold consolidate_around
  by_cases hsmall : (L.insertIdx idx (s, e)).length ≤ 1
  · rw [if_pos hsmall]
    have hL0 : L = [] := List.length_eq_zero.mp (by omega)
    have hidx0 : idx = 0 := by omega
    subst hL0
    subst hidx0
    refine ⟨?_, ?_⟩
    · simp [Adjac, List.insertIdx_zero]
    · intro r hr
      simp [List.insertIdx_zero] at hr
      subst hr
      exact ⟨hs, hse⟩
  · rw [if_neg hsmall]
    have htake : (L.insertIdx idx (s, e)).take idx = L.take idx := by
      rw [hdecomp]
      exact List.take_left' htklen
    have hdrop : (L.insertIdx idx (s, e)).drop idx = (s, e) :: L.drop idx := by
      rw [hdecomp]
      exact List.drop_left' htklen
    have hcur : nthR (L.insertIdx idx (s, e)) idx = (s, e) := by
      unfold nthR
      rw [hdecomp, List.getD_append_right _ _ _ _ (by omega), htklen]
      simp
    have hsuf : (L.insertIdx idx (s, e)).drop (idx + 1) = L.drop idx := by
      have h1 : (L.insertIdx idx (s, e)).drop (idx + 1) =
          ((L.insertIdx idx (s, e)).drop idx).drop 1 := by
        rw [List.drop_drop]
      rw [h1, hdrop]
      rfl
    rw [htake, hcur, hsuf]
    have hAL := hInv.1
    have hVL := hInv.2
    have hpreChain : List.Chain' (fun a b : Range => b.2 < a.1)
        (L.take idx).reverse := by
      rw [List.chain'_reverse]
      exact List.Chain'.take hAL idx
    have hprevalid : ∀ r ∈ (L.take idx).reverse, validR r := by
      intro r hr
      exact hVL r (List.mem_of_mem_take (List.mem_reverse.mp hr))
    have hprelt : ∀ r ∈ (L.take idx).reverse, r.1 < (s, e).1 := by
      intro r hr
      rw [List.mem_reverse] at hr
      obtain ⟨i, hi, hieq⟩ := List.mem_iff_getElem.mp hr
      have hii : i < idx := by
        have := hi
        rw [htklen] at this
        exact this
      have := hbefore i hii
      rw [nthR_eq L (by omega)] at this
      rw [← hieq, List.getElem_take]
      exact this
    obtain ⟨lA, lV, lcurV, lcur1, lhead⟩ :=
      sweepLeftRev_spec ((L.take idx).reverse) (s, e) hpreChain hprevalid
        ⟨hs, hse⟩ hprelt
    have hsufChain : List.Chain' (fun a b : Range => a.2 < b.1) (L.drop idx) :=
      List.Chain'.drop hAL idx
    have hsufvalid : ∀ r ∈ L.drop idx, validR r := by
      intro r hr
      exact hVL r (List.mem_of_mem_drop hr)
    have hsufge : ∀ r ∈ L.drop idx,
        (sweepLeftRev ((L.take idx).reverse) (s, e)).2.1 ≤ r.1 := by
      intro r hr
      obtain ⟨i, hi, hieq⟩ := List.mem_iff_getElem.mp hr
      have := hafter (idx + i) (by omega) (by
        rw [List.length_drop] at hi
        omega)
      rw [nthR_eq L (by rw [List.length_drop] at hi; omega)] at this
      rw [← hieq, List.getElem_drop]
      omega
    obtain ⟨rA, rV, rcurV, rcur1, rhead⟩ :=
      sweepRight_spec (L.drop idx) (sweepLeftRev ((L.take idx).reverse) (s, e)).2
        hsufChain hsufvalid lcurV hsufge
    constructor
    · rw [Adjac, List.chain'_append]
      refine ⟨?_, ?_, ?_⟩
      · rw [List.chain'_reverse]
        exact lA
      · rw [List.chain'_cons']
        exact ⟨rhead, rA⟩
      · intro x hx y hy
        rw [List.getLast?_reverse] at hx
        simp only [List.head?_cons, Option.mem_def, Option.some.injEq] at hy
        have h1 := lhead x hx
        rw [← hy] at *
        omega
    · intro r hr
      rcases List.mem_append.mp hr with h | h
      · exact lV r (List.mem_reverse.mp h)
      · rcases List.mem_cons.mp h with h2 | h2
        · subst h2
          exact rcurV
        · exact rV r h2

end Subs2cia

namespace Subs2cia

theorem add_inv {tr : TimeRanges} (hInv : Inv tr._ranges) {s e : Int}
    (hs : 0 ≤ s) (hse : s ≤ e) :
    Inv (tr.add s e)._ranges ∧
      (tr.add s e)._units_per_second = tr._units_per_second := by
  obtain ⟨h1, h2, h3⟩ := get_index_spec tr._ranges s hInv
  constructor
  · show Inv (consolidate_around
      (tr._ranges.insertIdx (get_index tr._ranges s) (s, e))
      (get_index tr._ranges s) tr._cached_cumulative_skip).1
    exact consolidate_around_inv hInv hs hse h1 h2 h3 tr._cached_cumulative_skip
  · rfl

theorem mergeSort_starts_le (l : List Range) :
    List.Chain' (fun a b : Range => a.1 ≤ b.1)
      (List.mergeSort l (fun a b => a.1 ≤ b.1)) := by
  have htrans : ∀ (a b c : Range),
      (fun a b : Range => decide (a.1 ≤ b.1)) a b = true →
      (fun a b : Range => decide (a.1 ≤ b.1)) b c = true →
      (fun a b : Range => decide (a.1 ≤ b.1)) a c = true := by
    intro a b c
    simp only [decide_eq_true_eq]
    omega
  have htot : ∀ (a b : Range),
      ((fun a b : Range => decide (a.1 ≤ b.1)) a b ||
       (fun a b : Range => decide (a.1 ≤ b.1)) b a) = true := by
    intro a b
    simp only [Bool.or_eq_true, decide_eq_true_eq]
    omega
  have h := List.sorted_mergeSort htrans htot l
  refine List.Pairwise.chain' ?_
  refine h.imp ?_
  intro a b hab
  simpa using hab

theorem from_unsorted_facts (l : List Range) (u : Int)
    (hv : ∀ r ∈ l, validR r) :
    Inv (TimeRanges.from_unsorted l u)._ranges ∧
      (TimeRanges.from_unsorted l u)._units_per_second = u := by
  constructor
  · show Inv (consolidate_overlapping_ranges
      (l.mergeSort (fun a b => a.1 ≤ b.1)))
    refine consolidate_inv _ (mergeSort_starts_le l) ?_
    intro r hr
    exact hv r ((List.mergeSort_perm l _).mem_iff.mp hr)
  · rfl

/-- The closure of `TimeRanges` values reachable from `from_unsorted` on
well-formed intervals at a positive units-per-second, by `add` calls with
`0 ≤ start ≤ end` and `add_padding` calls with non-negative paddings at a
positive padding units-per-second. -/
inductive Reachable : TimeRanges → Prop where
  | base (l : List Range) (u : Int) :
      (∀ r ∈ l, validR r) → 0 < u → Reachable (TimeRanges.from_unsorted l u)
  | step_add (tr : TimeRanges) (s e : Int) :
      Reachable tr → 0 ≤ s → s ≤ e → Reachable (tr.add s e)
  | step_pad (tr t : TimeRanges) (a b u : Int) :
      Reachable tr → 0 ≤ a → 0 ≤ b → 0 < u →
      tr.add_padding a b u = some t → Reachable t

theorem reach_inv {tr : TimeRanges} (h : Reachable tr) :
    Inv tr._ranges ∧ 0 < tr._units_per_second := by
  induction h with
  | base l u hv hu =>
      obtain ⟨h1, h2⟩ := from_unsorted_facts l u hv
      exact ⟨h1, by rw [h2]; exact hu⟩
  | step_add tr s e _ hs hse ih =>
      obtain ⟨h1, h2⟩ := add_inv ih.1 hs hse
      exact ⟨h1, by rw [h2]; exact ih.2⟩
  | step_pad tr t a b u _ ha hb hu heq ih =>
      exact add_padding_inv ih.1 ih.2 ha hb hu heq

end Subs2cia

namespace Subs2cia

/-- C1: every `TimeRanges` built by `from_unsorted` from well-formed
intervals at a positive units-per-second and closed under `add` (with
`0 ≤ start ≤ end`) and `add_padding` (with non-negative paddings and a
positive padding units-per-second) has a range list strictly ordered by
start, with adjacent ranges neither overlapping nor touching
(`ranges[i].end < ranges[i+1].start`) and every start non-negative.
(The claim as stated also closes under `set_units_per_second` /
`with_units_per_second`, which breaks the invariant: see the
counterexample.) -/
theorem C1_invariant_closure {tr : TimeRanges} (h : Reachable tr) :
    ClaimInv tr._ranges :=
  inv_claimInv (reach_inv h).1

/-- Witness: the concrete set `from_unsorted [(1,2)] 100` is reachable
and satisfies the invariants. -/
theorem C1_invariant_closure_witness :
    ClaimInv (TimeRanges.from_unsorted [((1 : Int), (2 : Int))] 100)._ranges :=
  C1_invariant_closure
    (Reachable.base [((1 : Int), (2 : Int))] 100 (by decide) (by decide))

/-- Counterexample to C1 as stated: `set_units_per_second` is in the
claim's closure, but rescaling `{[0,4], [5,8]}` from 100 to 25
units-per-second yields `[(0,1), (1,2)]`, whose two ranges touch
(`ranges[0].end = 1 = ranges[1].start`), violating the claimed
invariant.  (The factor 1/4 is a dyadic rational, so the Python float
computation is exact and agrees with the model.) -/
theorem C1_counterexample :
    (TimeRanges.from_unsorted [((0 : Int), (4 : Int)), (5, 8)]
        100).set_units_per_second 25 =
      some ⟨[(0, 1), (1, 2)], 25, none⟩ ∧
    ¬ ClaimInv [((0 : Int), (1 : Int)), (1, 2)] := by
  constructor
  · have h1 : TimeRanges.from_unsorted [((0 : Int), (4 : Int)), (5, 8)] 100 =
        ⟨[(0, 4), (5, 8)], 100, none⟩ := by
      unfold TimeRanges.from_unsorted TimeRanges.mk'
      rw [List.mergeSort_of_sorted (by decide)]
      decide
    rw [h1]
    decide
  · decide

end Subs2cia
